import Mathlib

/-!
Verification of the mind-map post-processing and multi-chunk merging core of
the template_generation repository, against its natural-language specification.

The embedding below is a shallow model of:
  * `src/utils/mindmap_postprocess.py`   (function `post_process_mindmap`)
  * `src/template/mindmap_template.py`   (methods `clean_and_parse_json`,
    `_chunk_text`, `_generate_single_pass`, `_merge_mindmaps`,
    `_post_process_mindmap`)

Modelling conventions, shared by all definitions:
  * A node dict is modelled by the `Node` structure.  The source allows extra
    fields on node dicts; the pipeline reads and writes only the fields kept
    here, and it passes any other field through untouched, so extra fields are
    dropped from the model.  Node keys are modelled as integers and parent
    references as integers, following the schema the pipeline documents
    (`key: <int>`, `parent: <int|absent>`).
  * A Python dict field that can be absent or `None` is an `Option`.  For the
    `parent` field the distinction between an absent key and an explicit
    `"parent": None` is itself observable (the cleanup step of the normalizer
    deletes a present-but-None parent), so `parent` is doubly optional:
    `none` = field absent, `some none` = field present with value None,
    `some (some k)` = field present with integer value k.
  * Python object identity: the source mutates the single root dict object.
    The model applies root mutations to the list entry (entries) carrying the
    root key; the two coincide whenever node keys are unique, which is the
    regime of every theorem that depends on it.
  * Recursive traversals of the source (depth assignment, keep-set DFS,
    descendant counting, direction propagation, the orphan cascade and the
    merge walk) terminate in Python only on non-adversarial inputs; the model
    runs them on fuel.  Every fuel value used is provably sufficient on
    acyclic inputs with unique keys, and theorems that need termination carry
    those hypotheses.
  * The source indexes the colour palette after clamping the depth index to
    `len(colors) - 1`; the model reads the palette with a default for the
    out-of-range case, which is unreachable for a non-empty palette (the
    configured default has eight entries).
-/

/-- One mind-map node, mirroring the dict shape
`\x7bkey, text, parent?, dir?, brush?, loc?, _depth?\x7d` that the pipeline
reads and writes.  `tdepth` models the transient `_depth` helper field. -/
structure Node where
  key : Int
  text : String
  parent : Option (Option Int)
  dir : Option String
  brush : Option String
  loc : Option String
  tdepth : Option Int
deriving DecidableEq, Repr

/-- A GoJS TreeModel-like dict: a `class` tag and a `nodeDataArray`.
`nodeDataArray := none` models a dict whose node array is missing or is not a
list. -/
structure MindMap where
  className : Option String
  nodeDataArray : Option (List Node)
deriving DecidableEq, Repr

/-- The configuration values of `config/settings.py` that the mind-map core
reads. -/
structure Conf where
  maxNodes : Nat
  maxDepth : Int
  excludeExamples : Bool
  dedup : Bool
  colors : List String
deriving DecidableEq, Repr

/-- The default settings: MINDMAP_MAX_NODES=120, MINDMAP_MAX_DEPTH=3,
MINDMAP_EXCLUDE_EXAMPLES=true, MINDMAP_DEDUPLICATE_NODES=true and the
eight-entry colour palette. -/
def defaultConf : Conf :=
  { maxNodes := 120
    maxDepth := 3
    excludeExamples := true
    dedup := true
    colors := ["gold", "turquoise", "lavender", "aqua", "lightcoral",
               "lightsteelblue", "plum", "lightpink"] }

/-- `n.get("parent")`: both an absent field and an explicit None read as
None. -/
def getParent (n : Node) : Option Int :=
  n.parent.join

/-- The skeleton of a node: the data every traversal of the normalizer reads
(key, parent reference as `get` sees it, text).  All graph computations below
are functions of the skeleton list only. -/
def skel (n : Node) : Int × Option Int × String :=
  (n.key, getParent n, n.text)

/-- Abbreviation for skeleton entries. -/
abbrev Sk : Type := Int × Option Int × String

/-- The keys of a skeleton list. -/
def skKeys (sk : List Sk) : List Int :=
  sk.map (fun s => s.1)

/-- `children.get(k, [])` restricted to the child keys, in list order: the
keys of the nodes whose parent reference is `k`. -/
def childKeys (sk : List Sk) (k : Int) : List Int :=
  ((sk.filter (fun s => s.2.1 == some k)).map (fun s => s.1))

/-- `children.get(k, [])` restricted to child (key, text) pairs, in list
order. -/
def childKT (sk : List Sk) (k : Int) : List (Int × String) :=
  ((sk.filter (fun s => s.2.1 == some k)).map (fun s => (s.1, s.2.2)))

/-- Root lookup of the normalizer: the loop `for n in nodes: if
n.get("parent") is None: root = n` keeps the last parentless node. -/
def findRootLast (ns : List Node) : Option Node :=
  ns.foldl (fun acc n => if getParent n = none then some n else acc) none

/-- Root lookup of the merger: `for n in nodes: ... root = n; break` keeps
the first parentless node. -/
def findRootFirst (ns : List Node) : Option Node :=
  ns.find? (fun n => getParent n == none)

/-! ### Orphan pruning

The source collects the nodes whose declared parent key is missing from the
node set, and cascades a stack DFS over the parent-indexed children map,
collecting the set of keys reachable from those orphan roots.  The set the
stack loop computes is the least superset of the orphan-root keys closed
under taking children; the model computes that closure by iterating the
closure step to its fixpoint, which is reached within (number of distinct
keys + 1) rounds. -/

/-- Keys of the orphan roots: nodes with a parent reference that is not the
key of any node in the list. -/
def orphanInit (sk : List Sk) : Finset Int :=
  ((sk.filter (fun s =>
      match s.2.1 with
      | some p => !((skKeys sk).contains p)
      | none => false)).map (fun s => s.1)).toFinset

/-- One cascade step: add the keys of all children of already-collected
keys. -/
def orphanStep (sk : List Sk) (S : Finset Int) : Finset Int :=
  S ∪ ((sk.filter (fun s =>
      match s.2.1 with
      | some p => decide (p ∈ S)
      | none => false)).map (fun s => s.1)).toFinset

/-- Iterate a step function until it fixes, with fuel. -/
def iterToFix (g : Finset Int → Finset Int) : Nat → Finset Int → Finset Int
  | 0, s => s
  | fuel + 1, s => if g s = s then s else iterToFix g fuel (g s)

/-- The set of keys removed by the orphan cascade. -/
def orphanKeys (sk : List Sk) : Finset Int :=
  iterToFix (orphanStep sk) ((skKeys sk).toFinset.card + 1) (orphanInit sk)

/-! ### Depth assignment

`assign_depth` is a pre-order DFS from the root over the children map with a
shared visited set of keys; each first-visited key is tagged with its depth.
The model returns the (key, depth) assignment list the DFS produces. -/

/-- The recursive body of `assign_depth`: record the current key at the
current depth, then walk the children in order, skipping already visited
keys.  State is (visited keys, assignment list). -/
def depthGo (sk : List Sk) : Nat → Int → Int → Finset Int × List (Int × Int) →
    Finset Int × List (Int × Int)
  | 0, _, _, st => st
  | fuel + 1, k, d, st =>
      (childKeys sk k).foldl
        (fun st2 ck =>
          if ck ∈ st2.1 then st2
          else depthGo sk fuel ck (d + 1) (insert ck st2.1, st2.2))
        (st.1, st.2 ++ [(k, d)])

/-- The `_depth` assignment produced by `assign_depth(root, 0, {root key})`. -/
def depthMap (sk : List Sk) (rk : Int) : List (Int × Int) :=
  (depthGo sk (sk.length + 1) rk 0 ({rk}, [])).2

/-- Write an assignment list into the transient `_depth` fields. -/
def setDepth (dm : List (Int × Int)) (n : Node) : Node :=
  match dm.lookup n.key with
  | some d => { n with tdepth := some d }
  | none => n

/-! ### Depth / example-keyword pruning -/

/-- The example/narrative exclusion vocabulary, verbatim from the source. -/
def exampleKeywords : List String :=
  ["مثال", "امثلة", "مثلاً", "مثل", "على سبيل المثال", "قصة", "حكاية",
   "سيناريو", "تجربة", "توضيح", "حالة",
   "قصص", "حكايات", "سيناريوهات", "تجارب", "توضيحات", "حالات",
   "example", "examples", "e.g.", "for example", "case", "example", "e.g",
   "scenario", "story", "illustration", "experiment", "case study"]

/-- Substring test on character lists (`kw in text` of Python). -/
def isSubstr (needle : List Char) : List Char → Bool
  | [] => needle.isEmpty
  | c :: rest => needle.isPrefixOf (c :: rest) || isSubstr needle rest

/-- Python whitespace characters (`str.strip` / `\s`), restricted to the
ASCII ones the inputs use. -/
def isWs (c : Char) : Bool :=
  c.isWhitespace

/-- Python `str.strip()` on a character list. -/
def trimChars (l : List Char) : List Char :=
  ((l.dropWhile isWs).reverse.dropWhile isWs).reverse

/-- Characterwise `str.lower()` (ASCII; the exclusion keywords are Arabic or
lowercase English, so only ASCII letters matter). -/
def lowerChars (l : List Char) : List Char :=
  l.map Char.toLower

/-- `str(node.get("text") or "").strip().lower()`. -/
def normTextKeep (t : String) : String :=
  String.mk (lowerChars (trimChars t.toList))

/-- The condition under which `dfs_keep` keeps a node and descends: the depth
bound passes (or depth is unlimited) and the normalized text matches no
exclusion keyword (when exclusion is enabled). -/
def keepCond (conf : Conf) (t : String) (d : Nat) : Bool :=
  (decide (conf.maxDepth < 0) || decide ((d : Int) ≤ max 0 conf.maxDepth)) &&
  !(conf.excludeExamples &&
    exampleKeywords.any (fun kw => isSubstr kw.toList (normTextKeep t).toList))

/-- The recursive body of `dfs_keep`: if the node passes, add its key and
recurse into its children with depth + 1. -/
def keepGo (conf : Conf) (sk : List Sk) :
    Nat → Int → String → Nat → Finset Int → Finset Int
  | 0, _, _, _, acc => acc
  | fuel + 1, k, t, d, acc =>
      if keepCond conf t d then
        (childKT sk k).foldl
          (fun acc2 ct => keepGo conf sk fuel ct.1 ct.2 (d + 1) acc2)
          (insert k acc)
      else acc

/-- The `to_keep` set computed by `dfs_keep(root, 0)`. -/
def dfsKeepSet (conf : Conf) (sk : List Sk) (rk : Int) (rt : String) :
    Finset Int :=
  keepGo conf sk (sk.length + 1) rk rt 0 ∅

/-! ### Colour assignment -/

/-- `colors[max(0, min(depth, len(colors) - 1))]`. -/
def colorFor (conf : Conf) (d : Int) : String :=
  (conf.colors.getD (max 0 (min d ((conf.colors.length : Int) - 1))).toNat "")

/-! ### Direction balancing -/

/-- `count_descendants(k)`: number of nodes in the strict subtree below key
`k` (children map traversal). -/
def countDesc (sk : List Sk) : Nat → Int → Nat
  | 0, _ => 0
  | fuel + 1, k =>
      (childKeys sk k).foldl (fun acc ck => acc + 1 + countDesc sk fuel ck) 0

/-- Stable descending insertion by weight, matching the stable
`sort(key=weight, reverse=True)` of Python: among equal weights the earlier
element stays first. -/
def insertW (x : Int × Nat) : List (Int × Nat) → List (Int × Nat)
  | [] => [x]
  | y :: ys => if y.2 ≤ x.2 then x :: y :: ys else y :: insertW x ys

/-- Stable sort, descending by weight. -/
def sortW : List (Int × Nat) → List (Int × Nat)
  | [] => []
  | x :: xs => insertW x (sortW xs)

/-- The greedy left/right assignment: each branch, in sorted order, goes to
the currently lighter side, ties to the left. -/
def greedyAssign : List (Int × Nat) → Nat → Nat → List (Int × String)
  | [], _, _ => []
  | (k, w) :: rest, lt, rt =>
      if lt ≤ rt then (k, "left") :: greedyAssign rest (lt + w) rt
      else (k, "right") :: greedyAssign rest lt (rt + w)

/-- `propagate_dir`: every strict descendant of key `k` receives direction
`d`. -/
def propagateDir (sk : List Sk) : Nat → Int → String → List (Int × String)
  | 0, _, _ => []
  | fuel + 1, k, d =>
      (childKeys sk k).flatMap (fun ck => (ck, d) :: propagateDir sk fuel ck d)

/-- The full direction assignment of the balancing step: greedy directions
for the main branches, propagated to all their descendants.  Propagation runs
after the greedy pass, so its entries take precedence in the lookup; the two
domains are disjoint whenever keys are unique. -/
def dirAssign (sk : List Sk) (rk : Int) : List (Int × String) :=
  let mains := childKeys sk rk
  let weights := mains.map (fun k => (k, 1 + countDesc sk (sk.length + 1) k))
  let A := greedyAssign (sortW weights) 0 0
  let P := mains.flatMap
    (fun k => propagateDir sk (sk.length + 1) k ((A.lookup k).getD ""))
  P ++ A

/-- `not root.get("loc")`: missing or empty string. -/
def locFalsy : Option String → Bool
  | none => true
  | some s => s = ""

/-- `not n.get("brush")`. -/
def brushFalsy : Option String → Bool
  | none => true
  | some s => s = ""

/-! ### The structural normalizer, `post_process_mindmap` of
`src/utils/mindmap_postprocess.py`. -/

/-- The keep-prune filter of step 5: `k in to_keep and (p is None or p in
to_keep)`. -/
def keepFilter (K : Finset Int) (n : Node) : Bool :=
  decide (n.key ∈ K) &&
  (match getParent n with
   | none => true
   | some p => decide (p ∈ K))

/-- The final cleanup of one node: drop the transient `_depth` field, and
delete the parent field when it is present with value None. -/
def cleanupNode (n : Node) : Node :=
  { n with tdepth := none
           parent := if n.parent = some none then none else n.parent }

/-- `post_process_mindmap(data)` of `src/utils/mindmap_postprocess.py`.

Steps, in source order: early return on a missing or empty node array;
`class` defaulting; last-parentless root lookup (early return when none);
node-cap prefix truncation; orphan cascade removal; `_depth` assignment;
`dfs_keep` with the depth bound and the example-keyword exclusion, followed
by the keep filter (applied only when the keep set is smaller than the node
list and the depth bound is enabled); `_depth` reassignment; colour by depth;
greedy left/right balancing with propagation; root location defaulting; and
cleanup (drop `_depth`, drop a None parent field). -/
def post_process_mindmap (conf : Conf) (data : MindMap) : MindMap :=
  match data.nodeDataArray with
  | none => data
  | some ns =>
    if ns.isEmpty then data else
    let cls := some (data.className.getD "go.TreeModel")
    match findRootLast ns with
    | none => { data with className := cls }
    | some root =>
      let rk := root.key
      let ns1 := ns.take conf.maxNodes
      let S := orphanKeys (ns1.map skel)
      let ns2 := ns1.filter (fun n => !(decide (n.key ∈ S)))
      let sk2 := ns2.map skel
      let ns3 := ns2.map (setDepth (depthMap sk2 rk))
      let K := dfsKeepSet conf sk2 rk root.text
      let ns4 := if K.card ≠ ns3.length ∧ 0 ≤ conf.maxDepth
                 then ns3.filter (keepFilter K)
                 else ns3
      let sk4 := ns4.map skel
      let ns5 := ns4.map (setDepth (depthMap sk4 rk))
      let ns6 := ns5.map (fun n =>
        { n with brush := some (colorFor conf (n.tdepth.getD 0)) })
      let dmap := dirAssign sk4 rk
      let ns7 := ns6.map (fun n =>
        match dmap.lookup n.key with
        | some d => { n with dir := some d }
        | none => n)
      let ns8 := ns7.map (fun n =>
        if n.key = rk && locFalsy n.loc then { n with loc := some "0 0" }
        else n)
      let ns9 := ns8.map cleanupNode
      { className := cls, nodeDataArray := some ns9 }

/-! ## The JSON extractor, `clean_and_parse_json` of
`src/template/mindmap_template.py`.

`json.loads` and `repair_json` are external library calls (Python stdlib and
the json-repair package); the extractor is parameterized over them as total
functions, a failing strict parse being `none`.  The cleaning passes
(code-fence stripping, brace slicing, whitespace collapsing) are repository
code and are modelled exactly. -/

/-- The marker `re.sub(r"```json\s*", ...)` looks for. -/
def fencePat : List Char :=
  ['`', '`', '`', 'j', 's', 'o', 'n']

/-- The fuel-indexed scanner of `re.sub(r"```json\s*", "", text)`: at each
position, an occurrence of the fence marker is removed together with the
whitespace run after it, any other character is kept.  One fuel unit is spent
per step; `length` fuel always suffices because each step strictly shortens
the list. -/
def dropFencesF : Nat → List Char → List Char
  | 0, l => l
  | _ + 1, [] => []
  | fuel + 1, c :: rest =>
    if fencePat.isPrefixOf (c :: rest) then
      dropFencesF fuel ((rest.drop 6).dropWhile isWs)
    else c :: dropFencesF fuel rest

/-- `re.sub(r"```json\s*", "", text)`. -/
def dropFences (l : List Char) : List Char :=
  dropFencesF l.length l

/-- The whitespace span the MULTILINE pattern ```` ```\s*$ ```` consumes
after the backticks, when it matches: the longest whitespace prefix that ends
at the end of the string or right before a newline. -/
def fenceEnd (rest : List Char) : Option Nat :=
  let m := (rest.takeWhile Char.isWhitespace).length
  (List.range (m + 1)).reverse.find?
    (fun j => j == rest.length || rest[j]? == some '\n')

/-- The marker `re.sub(r"```\s*$", ...)` looks for. -/
def trailPat : List Char :=
  ['`', '`', '`']

/-- The fuel-indexed scanner of `re.sub(r"```\s*$", "", text,
flags=re.MULTILINE)`: each occurrence of three backticks whose following
whitespace reaches a line end (or the end of the string) is removed together
with that whitespace span; when the span condition fails the scan moves on by
one character.  `length` fuel always suffices. -/
def dropTrailFenceF : Nat → List Char → List Char
  | 0, l => l
  | _ + 1, [] => []
  | fuel + 1, c :: rest =>
    if trailPat.isPrefixOf (c :: rest) then
      match fenceEnd (rest.drop 2) with
      | some j => dropTrailFenceF fuel ((rest.drop 2).drop j)
      | none => c :: dropTrailFenceF fuel rest
    else c :: dropTrailFenceF fuel rest

/-- `re.sub(r"```\s*$", "", text, flags=re.MULTILINE)`. -/
def dropTrailFence (l : List Char) : List Char :=
  dropTrailFenceF l.length l

/-- First index of a character. -/
def firstIdx (c : Char) (l : List Char) : Option Nat :=
  l.findIdx? (fun x => x == c)

/-- Last index of a character (`str.rfind`). -/
def lastIdx (c : Char) (l : List Char) : Option Nat :=
  (l.reverse.findIdx? (fun x => x == c)).map (fun i => l.length - 1 - i)

/-- The brace slicing shared by the `re.search(r"(\x5c\x7b.*\x5c\x7d)", ...,
DOTALL)` step and by the later `find("\x7b")` / `rfind("\x7d")` step: when an
opening brace is followed somewhere by a closing brace, keep the span from
the first opening brace to the last closing brace, otherwise leave the text
unchanged. -/
def jsonSlice (l : List Char) : List Char :=
  match firstIdx '\x7b' l, lastIdx '\x7d' l with
  | some i, some j => if i < j then (l.drop i).take (j - i + 1) else l
  | _, _ => l

/-- The single left-to-right pass of `str.replace("  ", " ")`. -/
def collapsePairs : List Char → List Char
  | ' ' :: ' ' :: rest => ' ' :: collapsePairs rest
  | c :: rest => c :: collapsePairs rest
  | [] => []

/-- Strategy-3 text normalization:
`text.replace("\n", " ").replace("\t", " ").replace("  ", " ").strip()`. -/
def collapseWs (s : String) : String :=
  String.mk (trimChars (collapsePairs
    (s.toList.map (fun c => if c = '\n' || c = '\t' then ' ' else c))))

/-- `clean_and_parse_json(response_text)`: the cleaning pipeline (fence
stripping, brace slicing, strip, brace slicing again) followed by the four
parsing strategies in source order, short-circuiting on the first success:
strict parse, repair parse, strict parse of the whitespace-collapsed text,
repair parse of the whitespace-collapsed text. -/
def clean_and_parse_json {α : Type} (loads : String → Option α)
    (repairJson : String → String) (txt : String) : Option α :=
  let c1 := String.mk (dropFences txt.toList)
  let c2 := String.mk (dropTrailFence c1.toList)
  let c3 := String.mk (jsonSlice c2.toList)
  let c4 := String.mk (trimChars c3.toList)
  let c5 := String.mk (jsonSlice c4.toList)
  match loads c5 with
  | some v => some v
  | none =>
    match loads (repairJson c5) with
    | some v => some v
    | none =>
      match loads (collapseWs c5) with
      | some v => some v
      | none => loads (repairJson (collapseWs c5))

/-- The cleaned slice handed to the parsing strategies (exposed for
theorems). -/
def cleanedSlice (txt : String) : String :=
  let c1 := String.mk (dropFences txt.toList)
  let c2 := String.mk (dropTrailFence c1.toList)
  let c3 := String.mk (jsonSlice c2.toList)
  let c4 := String.mk (trimChars c3.toList)
  String.mk (jsonSlice c4.toList)

/-! ## The chunk splitter, `_chunk_text` of `src/template/mindmap_template.py`.

The loop is modelled on fuel: one fuel unit per loop iteration.  The loop
variable sequence is a deterministic function of the start offset, and its
values range over the text offsets, so `length + 1` iterations are reached
only when an offset repeats, which is exactly when the Python loop never
terminates; `none` therefore models divergence.  The comparison
`last_period + 1 > size * 0.6` is computed by the source in floating point
and is modelled as the exact rational comparison `5 * (lp + 1) > 3 * size`. -/

/-- Index of the last sentence-terminal character of the window:
`max(window.rfind("."), window.rfind("!"), window.rfind("?"),
window.rfind("\n"))`, or `none` when all are -1. -/
def sentinelIdx (w : List Char) : Option Nat :=
  (w.reverse.findIdx? (fun c => c == '.' || c == '!' || c == '?' || c == '\n')).map
    (fun i => w.length - 1 - i)

/-- The window end of one iteration: the hard cap `min(n, start + size)`,
pulled back to the last sentence boundary when one lies in the final 40% of
the window. -/
def chunkEnd (t : List Char) (sizeN : Nat) (start : Nat) : Nat :=
  let en := min t.length (start + sizeN)
  let window := (t.drop start).take (en - start)
  match sentinelIdx window with
  | some lp => if 3 * sizeN < 5 * (lp + 1) then start + lp + 1 else en
  | none => en

/-- One loop iteration: the stripped chunk and the window end. -/
def chunkStep (t : List Char) (sizeN : Nat) (start : Nat) :
    List Char × Nat :=
  let en := chunkEnd t sizeN start
  (trimChars ((t.drop start).take (en - start)), en)

/-- The `while start < n` loop of `_chunk_text` on fuel.  The next start is
`max(0, end - overlap)`, which is the truncated subtraction `en - ov`. -/
def chunkAux (t : List Char) (sizeN ov : Nat) :
    Nat → Nat → Option (List (List Char))
  | 0, _ => none
  | fuel + 1, start =>
    if start < t.length then
      let st := chunkStep t sizeN start
      if t.length ≤ st.2 then
        some (if st.1.isEmpty then [] else [st.1])
      else
        match chunkAux t sizeN ov fuel (st.2 - ov) with
        | some rest => some (if st.1.isEmpty then rest else st.1 :: rest)
        | none => none
    else some []

/-- `_chunk_text(text, size, overlap)`.  `size <= 0` returns the whole text
as one chunk; otherwise the loop runs with clamped overlap `max(0,
overlap)`. -/
def chunk_text (t : String) (size overlap : Int) : Option (List String) :=
  if size ≤ 0 then some [t]
  else (chunkAux t.toList size.toNat overlap.toNat (t.toList.length + 1) 0).map
    (fun cs => cs.map String.mk)

/-! ## The multi-chunk merger, `_merge_mindmaps` of
`src/template/mindmap_template.py`.

The per-map subtree walk is an explicit stack loop (`stack.pop()` takes the
end of a Python list, so children pushed in order are visited in reverse);
the model keeps the stack head as the top and pushes reversed child blocks.
The walk is run on fuel: the Python loop diverges on inputs whose
parent-indexed children map is cyclic, which `none` models. -/

/-- `children.get(k, [])` with the full nodes, in list order. -/
def childNodes (ns : List Node) (k : Int) : List Node :=
  ns.filter (fun n => getParent n == some k)

/-- Scanner of `re.sub(r"\s+", " ", s)`: a whitespace run becomes a single
space.  The flag records whether the previous character was inside a run. -/
def collapseRunsGo (inRun : Bool) : List Char → List Char
  | [] => []
  | c :: rest =>
      if isWs c then
        if inRun then collapseRunsGo true rest
        else ' ' :: collapseRunsGo true rest
      else c :: collapseRunsGo false rest

/-- `re.sub(r"\s+", " ", s)`: collapse whitespace runs to single spaces. -/
def collapseRuns (l : List Char) : List Char :=
  collapseRunsGo false l

/-- The text normalization used for deduplication. -/
def norm_text (t : String) : String :=
  String.mk (lowerChars (trimChars (collapseRuns t.toList)))

/-- State of the merger: the next fresh key, the accumulated merged node
list, and the `seen_by_parent_text` deduplication set. -/
structure MergeSt where
  nextKey : Int
  acc : List Node
  seen : Finset (Int × String)
deriving DecidableEq

/-- The stack walk that remaps one source map under its branch node.  The
original root is replaced by the branch, so its children are pushed with the
branch key and the root node itself is not copied.  Every other node gets a
fresh key (consumed even when the node is then dropped as a duplicate); a
node is dropped, together with its entire subtree, when deduplication is on
and the (parent, normalized text) pair was seen. -/
def mergeWalk (conf : Conf) (ns : List Node) (root : Node) :
    Nat → List (Node × Int) → MergeSt → Option MergeSt
  | _, [], st => some st
  | 0, _ :: _, _ => none
  | fuel + 1, (orig, newPar) :: rest, st =>
    if orig = root then
      mergeWalk conf ns root fuel
        (((childNodes ns orig.key).map (fun ch => (ch, newPar))).reverse ++ rest)
        st
    else
      let newKey := st.nextKey
      let newNode : Node :=
        { key := newKey, parent := some (some newPar), text := orig.text,
          brush := orig.brush, dir := orig.dir, loc := none, tdepth := none }
      let pt := (newPar, norm_text orig.text)
      if conf.dedup && decide (pt ∈ st.seen) then
        mergeWalk conf ns root fuel rest { st with nextKey := newKey + 1 }
      else
        mergeWalk conf ns root fuel
          (((childNodes ns orig.key).map (fun ch => (ch, newKey))).reverse ++ rest)
          { nextKey := newKey + 1, acc := st.acc ++ [newNode],
            seen := insert pt st.seen }

/-- Appending the branch node of one chunk: the fresh key is consumed either
way; the branch node itself is appended (and its (0, normalized title) pair
recorded) unless branch-level deduplication drops it. -/
def branchInsert (conf : Conf) (st : MergeSt) (branch : Node) : MergeSt :=
  if !(decide (((0 : Int), norm_text branch.text) ∈ st.seen)) || !conf.dedup then
    { st with
        nextKey := st.nextKey + 1
        acc := st.acc ++ [branch]
        seen := insert ((0 : Int), norm_text branch.text) st.seen }
  else { st with nextKey := st.nextKey + 1 }

/-- The outer loop of the merger over the source maps, with the running
enumeration index.  A map without a node list, with an empty list, or without
a parentless root is skipped.  Each surviving map contributes a branch node
under the synthetic root (key 0), unless branch-level deduplication drops it;
the subtree walk runs either way, which is what leaves the dropped-branch
descendants dangling. -/
def mergeLoop (conf : Conf) (fuel : Nat) :
    List MindMap → Nat → MergeSt → Option MergeSt
  | [], _, st => some st
  | m :: ms, idx, st =>
    match m.nodeDataArray with
    | none => mergeLoop conf fuel ms (idx + 1) st
    | some ns =>
      if ns.isEmpty then mergeLoop conf fuel ms (idx + 1) st else
      match findRootFirst ns with
      | none => mergeLoop conf fuel ms (idx + 1) st
      | some root =>
        let chunkTitle :=
          if root.text = "" then "Chunk " ++ toString (idx + 1) else root.text
        let branch : Node :=
          { key := st.nextKey, parent := some (some 0), text := chunkTitle,
            dir := some (if idx % 2 = 0 then "right" else "left"),
            brush := some (conf.colors.getD 1 ""),
            loc := none, tdepth := none }
        match mergeWalk conf ns root fuel [(root, st.nextKey)]
            (branchInsert conf st branch) with
        | none => none
        | some st2 => mergeLoop conf fuel ms (idx + 1) st2

/-- `_merge_mindmaps(maps)`: empty input (no nodes at all) yields the empty
tree; otherwise a synthetic root with key 0 is created, every map is merged
under it, and the merged list is truncated to the node cap. -/
def merge_mindmaps (arabic : Bool) (conf : Conf) (fuel : Nat)
    (maps : List MindMap) : Option MindMap :=
  let allNodes := maps.flatMap (fun m => m.nodeDataArray.getD [])
  if allNodes.isEmpty then
    some { className := some "go.TreeModel", nodeDataArray := some [] }
  else
    let synthetic : Node :=
      { key := 0,
        text := if arabic then "خريطة شاملة" else "Comprehensive Mind Map",
        parent := none, dir := none, brush := some (conf.colors.getD 0 ""),
        loc := some "0 0", tdepth := none }
    match mergeLoop conf fuel maps 0 { nextKey := 1, acc := [synthetic], seen := ∅ } with
    | none => none
    | some st =>
      some { className := some "go.TreeModel",
             nodeDataArray := some (st.acc.take conf.maxNodes) }

/-! ## The template-side post-process, `_post_process_mindmap` of
`src/template/mindmap_template.py` (the version the single-pass builder and
`generate` run; it has no pruning and no weight balancing). -/

/-- Stable ascending insertion by key, matching
`sorted(main_branches, key=lambda x: x.get("key", 0))`. -/
def insertK (x : Int) : List Int → List Int
  | [] => [x]
  | y :: ys => if x ≤ y then x :: y :: ys else y :: insertK x ys

/-- Stable ascending sort by key. -/
def sortK : List Int → List Int
  | [] => []
  | x :: xs => insertK x (sortK xs)

/-- `_post_process_mindmap(data)` of the template: class defaulting, last
parentless root, node cap, depth assignment, colour by depth only where the
brush is missing, alternating right/left main-branch directions in key
order (no propagation to descendants), root location defaulting, and removal
of the transient depth field (the parent field is left untouched). -/
def post_process_mindmap_tpl (conf : Conf) (data : MindMap) : MindMap :=
  match data.nodeDataArray with
  | none => data
  | some ns =>
    if ns.isEmpty then data else
    let cls := some (data.className.getD "go.TreeModel")
    match findRootLast ns with
    | none => { data with className := cls }
    | some root =>
      let rk := root.key
      let ns1 := ns.take conf.maxNodes
      let sk1 := ns1.map skel
      let ns3 := ns1.map (setDepth (depthMap sk1 rk))
      let ns6 := ns3.map (fun n =>
        if brushFalsy n.brush then
          { n with brush := some (colorFor conf (n.tdepth.getD 0)) }
        else n)
      let A := (sortK (childKeys sk1 rk)).enum.map
        (fun p => (p.2, if p.1 % 2 = 0 then "right" else "left"))
      let ns7 := ns6.map (fun n =>
        match A.lookup n.key with
        | some d => { n with dir := some d }
        | none => n)
      let ns8 := ns7.map (fun n =>
        if n.key = rk && locFalsy n.loc then { n with loc := some "0 0" }
        else n)
      let ns9 := ns8.map (fun n => { n with tdepth := none })
      { className := cls, nodeDataArray := some ns9 }

/-! ## The single-pass builder and the multi-chunk pipeline of `generate`.

The generation adapter (the LLM chain call) is external: its outcome is a
parameter, `none` modelling an adapter failure (a raised exception).  The
composite of `clean_and_parse_json` and the reading of the parsed dict into
the node schema is likewise passed as one `parse` parameter, `none` modelling
a parse failure. -/

/-- The fabricated fallback map returned by the `except` branch of
`_generate_single_pass`. -/
def fallback_map (arabic : Bool) : MindMap :=
  { className := some "go.TreeModel",
    nodeDataArray := some
      [ { key := 0,
          text := if arabic then "محتوى تعليمي" else "Educational Content",
          parent := none, dir := none, brush := none, loc := some "0 0",
          tdepth := none },
        { key := 1,
          text := if arabic then "نقطة رئيسية" else "Main Point",
          parent := some (some 0), dir := some "right",
          brush := some "skyblue", loc := none, tdepth := none } ] }

/-- `_generate_single_pass(content)`: on adapter failure, parse failure or a
result without a `nodeDataArray` field, the except branch returns the
fabricated fallback map; otherwise the parsed map is post-processed and its
class tag defaulted. -/
def generate_single_pass (arabic : Bool) (conf : Conf)
    (parse : String → Option MindMap) (response : Option String) : MindMap :=
  match response with
  | none => fallback_map arabic
  | some txt =>
    match parse txt with
    | none => fallback_map arabic
    | some parsed =>
      let data := post_process_mindmap_tpl conf parsed
      match data.nodeDataArray with
      | none => fallback_map arabic
      | some _ => { data with className := some (data.className.getD "go.TreeModel") }

/-- The multi-chunk path of `generate`: one single-pass result per chunk
response (appended unconditionally), merged, then post-processed with the
template-side pass. -/
def generate_multi (arabic : Bool) (conf : Conf)
    (parse : String → Option MindMap) (fuel : Nat)
    (responses : List (Option String)) : Option MindMap :=
  let partials := responses.map (generate_single_pass arabic conf parse)
  (merge_mindmaps arabic conf fuel partials).map (post_process_mindmap_tpl conf)

/-! ## A strict JSON value parser.

`json.loads` is a Python library call; the theorems about the extractor are
parameterized over it.  For concrete counterexamples and witnesses a real
strict parser instance is needed; `miniLoads` parses the fragment of JSON
those concrete inputs use (integers, escape-free strings, arrays, objects,
whitespace) and, like `json.loads`, requires the whole input to be one
value. -/

inductive JVal
  | jnum (n : Int)
  | jstr (s : String)
  | jarr (xs : List JVal)
  | jobj (fs : List (String × JVal))

/-- Skip JSON whitespace. -/
def skipWs (l : List Char) : List Char :=
  l.dropWhile Char.isWhitespace

/-- Body of a string literal up to the closing quote; escapes and raw
control characters are rejected (strict `json.loads` rejects raw control
characters, and the concrete inputs use no escapes). -/
def strBody : List Char → Option (List Char × List Char)
  | [] => none
  | c :: rest =>
      if c = '"' then some ([], rest)
      else if c = '\\' || c.toNat < 32 then none
      else
        match strBody rest with
        | some (s, r) => some (c :: s, r)
        | none => none

/-- Value of a digit run. -/
def digitsVal (ds : List Char) : Nat :=
  ds.foldl (fun a c => a * 10 + (c.toNat - 48)) 0

/-- Comma-separated array items, ended by a closing bracket. -/
def parseItems (p : List Char → Option (JVal × List Char)) :
    Nat → List Char → Option (List JVal × List Char)
  | 0, _ => none
  | fuel + 1, l =>
    match p l with
    | none => none
    | some (v, r) =>
      match skipWs r with
      | ',' :: r2 => (parseItems p fuel r2).map (fun q => (v :: q.1, q.2))
      | ']' :: r2 => some ([v], r2)
      | _ => none

/-- One `"key": value` member. -/
def parsePair (p : List Char → Option (JVal × List Char)) (l : List Char) :
    Option ((String × JVal) × List Char) :=
  match skipWs l with
  | '"' :: r =>
    (match strBody r with
     | some (s, r2) =>
       (match skipWs r2 with
        | ':' :: r3 => (p r3).map (fun q => ((String.mk s, q.1), q.2))
        | _ => none)
     | none => none)
  | _ => none

/-- Comma-separated object members, ended by a closing brace. -/
def parseFields (p : List Char → Option (JVal × List Char)) :
    Nat → List Char → Option (List (String × JVal) × List Char)
  | 0, _ => none
  | fuel + 1, l =>
    match parsePair p l with
    | none => none
    | some (kv, r) =>
      match skipWs r with
      | ',' :: r2 => (parseFields p fuel r2).map (fun q => (kv :: q.1, q.2))
      | '\x7d' :: r2 => some ([kv], r2)
      | _ => none

/-- One JSON value. -/
def parseVal : Nat → List Char → Option (JVal × List Char)
  | 0, _ => none
  | fuel + 1, l =>
    match skipWs l with
    | [] => none
    | '"' :: rest => (strBody rest).map (fun p => (JVal.jstr (String.mk p.1), p.2))
    | '[' :: rest =>
        (match skipWs rest with
         | ']' :: r => some (JVal.jarr [], r)
         | _ => (parseItems (parseVal fuel) fuel rest).map
             (fun q => (JVal.jarr q.1, q.2)))
    | '\x7b' :: rest =>
        (match skipWs rest with
         | '\x7d' :: r => some (JVal.jobj [], r)
         | _ => (parseFields (parseVal fuel) fuel rest).map
             (fun q => (JVal.jobj q.1, q.2)))
    | '-' :: rest =>
        let ds := rest.takeWhile Char.isDigit
        if ds.isEmpty then none
        else some (JVal.jnum (-(digitsVal ds : Int)), rest.drop ds.length)
    | c :: rest =>
        if c.isDigit then
          let ds := (c :: rest).takeWhile Char.isDigit
          some (JVal.jnum ((digitsVal ds : Int)), (c :: rest).drop ds.length)
        else none

/-- A strict parse of a whole input string into one JSON value. -/
def miniLoads (s : String) : Option JVal :=
  match parseVal (s.length + 1) s.toList with
  | some (v, r) => if (skipWs r).isEmpty then some v else none
  | none => none

/-! ## Concrete inputs used by the theorems below. -/

/-- A node with only key, text and parent set, as produced by a minimal
generation result. -/
def mkNode (k : Int) (t : String) (p : Option (Option Int)) : Node :=
  { key := k, text := t, parent := p, dir := none, brush := none, loc := none,
    tdepth := none }

/-- Sum of the subtree weights (1 + descendant count) of the main branches of
the normalized output that carry direction `d`; the quantity the balancing
step accumulates per side. -/
def sideTotal (m : MindMap) (d : String) : Nat :=
  match m.nodeDataArray with
  | none => 0
  | some ns =>
    match findRootLast ns with
    | none => 0
    | some root =>
      ((childNodes ns root.key).filter (fun n => n.dir == some d)).foldl
        (fun a n => a + 1 + countDesc (ns.map skel) (ns.length + 1) n.key) 0

/-- A rootless 121-node input: every node carries a parent reference, so the
normalizer finds no root. -/
def bigRootless : MindMap :=
  { className := none,
    nodeDataArray := some ((List.range 121).map
      (fun i => mkNode (Int.ofNat i) ("n" ++ toString i) (some (some 999)))) }

/-- The balance example of the specification: one branch of subtree weight 10
(nine descendants) and seven leaf branches of weight 1. -/
def c9tree : MindMap :=
  { className := none,
    nodeDataArray := some
      ([mkNode 0 "Topic" none, mkNode 1 "B1" (some (some 0))] ++
       (List.range 9).map
         (fun i => mkNode (10 + Int.ofNat i) ("S" ++ toString i) (some (some 1))) ++
       (List.range 7).map
         (fun i => mkNode (2 + Int.ofNat i) ("B" ++ toString (i + 2)) (some (some 0)))) }

/-- First chunk tree for the merge claims: root text `T`, one child `A`. -/
def chunkMapA : MindMap :=
  { className := none,
    nodeDataArray := some [mkNode 1 "T" none, mkNode 2 "A" (some (some 1))] }

/-- Second chunk tree: the same root text `T`, one child `B`. -/
def chunkMapB : MindMap :=
  { className := none,
    nodeDataArray := some [mkNode 1 "T" none, mkNode 2 "B" (some (some 1))] }

/-- Single-root chunk trees that both use key 1, for the merge key-uniqueness
example. -/
def rootOnlyA : MindMap :=
  { className := none, nodeDataArray := some [mkNode 1 "Alpha" none] }

/-- Second single-root chunk tree, also with key 1. -/
def rootOnlyB : MindMap :=
  { className := none, nodeDataArray := some [mkNode 1 "Beta" none] }

/-- A strict-parse stand-in for the order counterexample of the extractor: it
fails on the cleaned slice, and succeeds with distinct results on the
whitespace-collapsed slice and on the repaired slice. -/
def loads0 (s : String) : Option Nat :=
  if s = "\x7bx \x7d" then some 1 else if s = "\x7bR\x7d" then some 2 else none

/-- The repair stand-in paired with `loads0`. -/
def repair0 (_ : String) : String :=
  "\x7bR\x7d"

/-- A fenced response whose JSON payload is an array containing an object:
the brace slicing of the extractor cuts the array down to the inner
object. -/
def resp7 : String :=
  "```json\n[1, \x7b\"a\": 2\x7d, 3]\n```"

/-- The key / parent-reference trace of the merge of `chunkMapA` and
`chunkMapB`. -/
def mergedPairs : List (Int × Option Int) :=
  [(0, none), (1, some 0), (2, some 1), (4, some 3)]


/-- The merge of the two key-1 root-only chunk trees (used as the witness
input for the merge key-uniqueness theorem). -/
def mergedRootsOut : MindMap :=
  (merge_mindmaps false defaultConf 50 [rootOnlyA, rootOnlyB]).getD
    { className := none, nodeDataArray := none }

/-! ## Theorems -/

/-- Claim C10: with deduplication enabled, merging two chunk trees with the
same normalized root text skips the second branch node (key 3) but still
remaps its descendants under the skipped key: the merge output contains a
node whose declared parent is 3 while no node with key 3 exists, and the
structural normalizer then removes that dangling node (only keys 0, 1, 2
survive). -/
theorem c10_dedup_dangling_parent :
    (merge_mindmaps false defaultConf 50 [chunkMapA, chunkMapB]).map
        (fun m => (m.nodeDataArray.getD []).map (fun n => (n.key, getParent n)))
      = some mergedPairs ∧
    (mergedPairs.any (fun p => p.2 == some 3)) = true ∧
    (mergedPairs.all (fun p => p.1 != 3)) = true ∧
    (merge_mindmaps false defaultConf 50 [chunkMapA, chunkMapB]).map
        (fun m => ((post_process_mindmap defaultConf m).nodeDataArray.getD []).map
          (fun n => n.key))
      = some [0, 1, 2] := by
  refine ⟨by decide, by decide, by decide, by decide⟩

/-- Claim C3 (counterexample): the single-pass builder does not return a
no-result sentinel on failure — the except branch of
`_generate_single_pass` returns the fabricated two-node placeholder tree —
and when every chunk fails, `generate` returns a merged tree of placeholder
branches (four nodes here), not a no-result signal. -/
theorem c3_counterexample :
    generate_single_pass false defaultConf (fun _ => none) none =
      fallback_map false ∧
    ((fallback_map false).nodeDataArray.getD []).length = 2 ∧
    (generate_multi false defaultConf (fun _ => none) 50 [none, none]).map
      (fun m => (m.nodeDataArray.getD []).length) = some 4 := by
  refine ⟨by decide, by decide, by decide⟩

/-- Claim C3 (amended): on any failure — adapter error or parse failure —
the single-pass builder returns the fabricated placeholder tree (a dict with
a two-node `nodeDataArray`, not a no-result sentinel); the merger does skip
entries that carry no node list; and an all-failing multi-chunk run
therefore returns a merged tree of placeholder branches rather than
reporting no result. -/
theorem c3_amended (arabic : Bool) (conf : Conf)
    (parse : String → Option MindMap) (txt : String)
    (hp : parse txt = none) :
    generate_single_pass arabic conf parse none = fallback_map arabic ∧
    generate_single_pass arabic conf parse (some txt) = fallback_map arabic ∧
    ((fallback_map arabic).nodeDataArray.getD []).length = 2 ∧
    merge_mindmaps arabic conf 1 [{ className := none, nodeDataArray := none }] =
      some { className := some "go.TreeModel", nodeDataArray := some [] } ∧
    (generate_multi false defaultConf (fun _ => none) 50 [none, none]).map
      (fun m => (m.nodeDataArray.getD []).length) = some 4 := by
  refine ⟨rfl, ?_, by simp [fallback_map], rfl, by decide⟩
  simp [generate_single_pass, hp]

/-- Witness for `c3_amended` at a concrete failing parse. -/
theorem c3_amended_witness :
    ((fun _ => (none : Option MindMap)) "x" = none) ∧
    (generate_single_pass false defaultConf (fun _ => none) none =
      fallback_map false ∧
    generate_single_pass false defaultConf (fun _ => none) (some "x") =
      fallback_map false ∧
    ((fallback_map false).nodeDataArray.getD []).length = 2 ∧
    merge_mindmaps false defaultConf 1 [{ className := none, nodeDataArray := none }] =
      some { className := some "go.TreeModel", nodeDataArray := some [] } ∧
    (generate_multi false defaultConf (fun _ => none) 50 [none, none]).map
      (fun m => (m.nodeDataArray.getD []).length) = some 4) :=
  ⟨rfl, c3_amended false defaultConf (fun _ => none) "x" rfl⟩

/-- Claim C4 (counterexample): the parsing strategies do not run in the
order the specification states.  For the input text whose cleaned slice is
rejected by the strict parse while its whitespace-collapsed variant parses
to one value and its repaired variant parses to a different value, the
extractor returns the repaired-variant value: the repair parse runs before
the whitespace-collapse parse. -/
theorem c4_counterexample :
    loads0 (cleanedSlice "\x7bx\n\x7d") = none ∧
    loads0 (collapseWs (cleanedSlice "\x7bx\n\x7d")) = some 1 ∧
    loads0 (repair0 (cleanedSlice "\x7bx\n\x7d")) = some 2 ∧
    clean_and_parse_json loads0 repair0 "\x7bx\n\x7d" = some 2 ∧
    (some 2 : Option Nat) ≠ some 1 := by
  refine ⟨by decide, by decide, by decide, by decide, by decide⟩

/-- Claim C4 (amended): the strategy order of the source is strict parse,
repair parse, strict parse of the whitespace-collapsed slice, repair parse of
the collapsed slice; hence whenever the strict parse of the cleaned slice
fails and the repair parse of that slice succeeds, the extractor returns the
repair-parse value (the collapsed-text strict parse is never consulted). -/
theorem c4_amended {α : Type} (loads : String → Option α)
    (repairJson : String → String) (txt : String) (v : α)
    (h1 : loads (cleanedSlice txt) = none)
    (h2 : loads (repairJson (cleanedSlice txt)) = some v) :
    clean_and_parse_json loads repairJson txt = some v := by
  simp only [clean_and_parse_json, cleanedSlice] at h1 h2 ⊢
  rw [h1, h2]

/-- Witness for `c4_amended` at the concrete parser stand-ins. -/
theorem c4_amended_witness :
    loads0 (cleanedSlice "\x7bx\n\x7d") = none ∧
    loads0 (repair0 (cleanedSlice "\x7bx\n\x7d")) = some 2 ∧
    clean_and_parse_json loads0 repair0 "\x7bx\n\x7d" = some 2 :=
  ⟨by decide, by decide,
   c4_amended loads0 repair0 "\x7bx\n\x7d" 2 (by decide) (by decide)⟩

/-- Claim C7 (counterexample): the round trip fails for a valid JSON value
that is an array containing an object.  The brace slicing of the extractor
cuts the fenced payload `[1, \x7b"a": 2\x7d, 3]` down to the inner object,
so the extractor returns that object while a strict parse of the payload
returns the array. -/
theorem c7_counterexample :
    resp7 = "```json\n" ++ "[1, \x7b\"a\": 2\x7d, 3]" ++ "\n```" ∧
    miniLoads "[1, \x7b\"a\": 2\x7d, 3]" =
      some (JVal.jarr [JVal.jnum 1, JVal.jobj [("a", JVal.jnum 2)], JVal.jnum 3]) ∧
    clean_and_parse_json miniLoads id resp7 =
      some (JVal.jobj [("a", JVal.jnum 2)]) ∧
    JVal.jobj [("a", JVal.jnum 2)] ≠
      JVal.jarr [JVal.jnum 1, JVal.jobj [("a", JVal.jnum 2)], JVal.jnum 3] :=
  ⟨rfl, rfl, rfl, fun h => JVal.noConfusion h⟩

/-- Claim C9 (counterexample): for branch weights [10,1,1,1,1,1,1,1] the
greedy assignment does put the weight-10 branch alone on one side and the
seven weight-1 branches on the other, but the final side totals are 10 and
7: they differ by 3, which exceeds the largest remaining (non-heaviest)
branch weight 1, so the stated bound fails. -/
theorem c9_counterexample :
    sideTotal (post_process_mindmap defaultConf c9tree) "left" = 10 ∧
    sideTotal (post_process_mindmap defaultConf c9tree) "right" = 7 ∧
    ¬(sideTotal (post_process_mindmap defaultConf c9tree) "left" -
      sideTotal (post_process_mindmap defaultConf c9tree) "right" ≤ 1) := by
  refine ⟨by decide, by decide, by decide⟩

/-- Claim C9 (amended): for the [10,1,1,1,1,1,1,1] tree the greedy pass
places the weight-10 branch (key 1) alone on the left — the first
assignment breaks the 0/0 tie to the left — with all its descendants, the
seven weight-1 branches all go right, and the side totals 10 and 7 differ by
3, which is at most the largest branch weight (10). -/
theorem c9_amended :
    (((post_process_mindmap defaultConf c9tree).nodeDataArray.getD []).all
      (fun n =>
        if n.key = 1 || 10 ≤ n.key then n.dir == some "left"
        else if 2 ≤ n.key && n.key ≤ 8 then n.dir == some "right"
        else n.dir == none)) = true ∧
    sideTotal (post_process_mindmap defaultConf c9tree) "left" = 10 ∧
    sideTotal (post_process_mindmap defaultConf c9tree) "right" = 7 ∧
    sideTotal (post_process_mindmap defaultConf c9tree) "left" -
      sideTotal (post_process_mindmap defaultConf c9tree) "right" ≤ 10 := by
  refine ⟨by decide, by decide, by decide, by decide⟩

/-- Claim C2 (counterexample): the node-count cap does not hold for every
input.  A 121-node input in which every node carries a parent reference has
no root, so the normalizer returns it unchanged (after the class default)
before the truncation step runs: the output keeps 121 > 120 nodes. -/
theorem c2_counterexample :
    ((post_process_mindmap defaultConf bigRootless).nodeDataArray.getD []).length = 121 ∧
    defaultConf.maxNodes = 120 ∧
    ¬(((post_process_mindmap defaultConf bigRootless).nodeDataArray.getD []).length ≤
      defaultConf.maxNodes) := by
  refine ⟨by decide, by decide, by decide⟩

/-- Claim C6 (counterexample): the chunk loop does not advance strictly for
every size > 0 and overlap ≥ 0.  On eight characters with size 4 and
overlap 4, the first iteration ends at offset 4 (not past the text, so the
loop continues) and the next start is max(0, 4 - 4) = 0 again; the fuel
model of the loop accordingly diverges (`none`). -/
theorem c6_counterexample :
    0 < "aaaaaaaa".toList.length ∧
    (chunkStep "aaaaaaaa".toList 4 0).2 = 4 ∧
    ¬("aaaaaaaa".toList.length ≤ (chunkStep "aaaaaaaa".toList 4 0).2) ∧
    (chunkStep "aaaaaaaa".toList 4 0).2 - 4 = 0 ∧
    chunk_text "aaaaaaaa" 4 4 = none := by
  refine ⟨by decide, by decide, by decide, by decide, by decide⟩

/-- Appending a node with a fresh key keeps the key list duplicate-free. -/
theorem acc_append_nodup (acc : List Node) (n : Node)
    (hnd : (acc.map Node.key).Nodup)
    (hb : ∀ k ∈ acc.map Node.key, k < n.key) :
    ((acc ++ [n]).map Node.key).Nodup := by
  rw [List.map_append]
  refine List.Nodup.append hnd (by simp) ?_
  intro a ha hmem
  simp at hmem
  subst hmem
  have := hb _ ha
  omega

/-- Appending a below-bound node keeps all keys below the bound. -/
theorem acc_append_bound (acc : List Node) (n : Node) (c : Int)
    (hb : ∀ k ∈ acc.map Node.key, k < c) (hn : n.key < c) :
    ∀ k ∈ (acc ++ [n]).map Node.key, k < c := by
  intro k hk
  simp at hk
  rcases hk with hk | hk
  · exact hb k (by simpa using hk)
  · omega

theorem merge_walk_inv (conf : Conf) (ns : List Node) (root : Node) :
    ∀ (fuel : Nat) (stack : List (Node × Int)) (st st2 : MergeSt),
      mergeWalk conf ns root fuel stack st = some st2 →
      (st.acc.map Node.key).Nodup →
      (∀ k ∈ st.acc.map Node.key, k < st.nextKey) →
      (st2.acc.map Node.key).Nodup ∧
      (∀ k ∈ st2.acc.map Node.key, k < st2.nextKey) ∧
      (∀ x, st.acc.head? = some x → st2.acc.head? = some x) := by
  intro fuel
  induction fuel with
  | zero =>
    intro stack st st2 h hnd hb
    cases stack with
    | nil =>
      simp [mergeWalk] at h
      subst h
      exact ⟨hnd, hb, fun x hx => hx⟩
    | cons p rest =>
      simp [mergeWalk] at h
  | succ fuel ih =>
    intro stack st st2 h hnd hb
    cases stack with
    | nil =>
      simp [mergeWalk] at h
      subst h
      exact ⟨hnd, hb, fun x hx => hx⟩
    | cons p rest =>
      obtain ⟨orig, newPar⟩ := p
      simp only [mergeWalk] at h
      split at h
      · exact ih _ _ _ h hnd hb
      · split at h
        · have := ih _ _ _ h hnd
            (by intro k hk
                have h2 := hb k hk
                show k < st.nextKey + 1
                omega)
          exact ⟨this.1, this.2.1, this.2.2⟩
        · have := ih _ _ _ h
            (acc_append_nodup st.acc _ hnd (fun k hk => hb k hk))
            (acc_append_bound st.acc _ _
              (fun k hk => by have := hb k hk; show k < st.nextKey + 1; omega)
              (by show st.nextKey < st.nextKey + 1; omega))
          refine ⟨this.1, this.2.1, ?_⟩
          intro x hx
          apply this.2.2
          show (st.acc ++ _).head? = some x
          rw [List.head?_append]
          simp [hx]

/-- The branch-insertion step preserves the key invariants. -/
theorem branchInsert_inv (conf : Conf) (st : MergeSt) (branch : Node)
    (hk : branch.key = st.nextKey)
    (hnd : (st.acc.map Node.key).Nodup)
    (hb : ∀ k ∈ st.acc.map Node.key, k < st.nextKey) :
    ((branchInsert conf st branch).acc.map Node.key).Nodup ∧
    (∀ k ∈ (branchInsert conf st branch).acc.map Node.key,
      k < (branchInsert conf st branch).nextKey) ∧
    (∀ x, st.acc.head? = some x →
      (branchInsert conf st branch).acc.head? = some x) := by
  unfold branchInsert
  split
  · refine ⟨acc_append_nodup st.acc _ hnd (by rw [hk]; exact hb), ?_, ?_⟩
    · exact acc_append_bound st.acc _ _
        (fun k hkk => by have := hb k hkk; show k < st.nextKey + 1; omega)
        (by rw [hk]; show st.nextKey < st.nextKey + 1; omega)
    · intro x hx
      show (st.acc ++ _).head? = some x
      rw [List.head?_append]
      simp [hx]
  · exact ⟨hnd, fun k hkk => by have := hb k hkk; show k < st.nextKey + 1; omega,
      fun x hx => hx⟩

theorem merge_loop_inv (conf : Conf) (fuel : Nat) :
    ∀ (maps : List MindMap) (idx : Nat) (st st2 : MergeSt),
      mergeLoop conf fuel maps idx st = some st2 →
      (st.acc.map Node.key).Nodup →
      (∀ k ∈ st.acc.map Node.key, k < st.nextKey) →
      (st2.acc.map Node.key).Nodup ∧
      (∀ k ∈ st2.acc.map Node.key, k < st2.nextKey) ∧
      (∀ x, st.acc.head? = some x → st2.acc.head? = some x) := by
  intro maps
  induction maps with
  | nil =>
    intro idx st st2 h hnd hb
    simp [mergeLoop] at h
    subst h
    exact ⟨hnd, hb, fun x hx => hx⟩
  | cons m ms ih =>
    intro idx st st2 h hnd hb
    simp only [mergeLoop] at h
    split at h
    · exact ih _ _ _ h hnd hb
    · split at h
      · exact ih _ _ _ h hnd hb
      · split at h
        · exact ih _ _ _ h hnd hb
        · split at h
          · exact absurd h (by simp)
          · rename_i st3 hwalk
            have hw := merge_walk_inv conf _ _ fuel _ _ _ hwalk
              ((branchInsert_inv conf st _ rfl hnd hb).1)
              ((branchInsert_inv conf st _ rfl hnd hb).2.1)
            have hl := ih _ _ _ h hw.1 hw.2.1
            exact ⟨hl.1, hl.2.1,
              fun x hx => hl.2.2 x
                (hw.2.2 x ((branchInsert_inv conf st _ rfl hnd hb).2.2 x hx))⟩

/-- Claim C8: whenever the merger returns (the walk is a Python while-loop
that the model runs on fuel, so the result is conditioned on it returning),
all node keys of the merged tree are pairwise distinct integers, and the
first node is the synthetic root with key 0.  Keys are handed out by a
strictly increasing fresh-key counter, so this holds even when the source
trees reuse the same key values. -/
theorem c8_merge_key_uniqueness (arabic : Bool) (conf : Conf) (fuel : Nat)
    (maps : List MindMap) (out : MindMap)
    (h : merge_mindmaps arabic conf fuel maps = some out) :
    ((out.nodeDataArray.getD []).map Node.key).Nodup ∧
    (∀ n, (out.nodeDataArray.getD []).head? = some n → n.key = 0) := by
  cases arabic
  all_goals
  simp only [merge_mindmaps, reduceIte] at h
  split at h
  · have h2 := Option.some.inj h
    subst h2
    simp
  · split at h
    · exact absurd h (by simp)
    · rename_i st hloop
      have h2 := Option.some.inj h
      subst h2
      have hinv := merge_loop_inv conf fuel maps 0 _ _ hloop (by simp) (by simp)
      constructor
      · simp only [Option.getD_some]
        rw [List.map_take]
        exact List.Nodup.sublist (List.take_sublist _ _) hinv.1
      · intro n hn
        have hh := hinv.2.2 _ rfl
        simp only [Option.getD_some] at hn
        cases hacc : st.acc with
        | nil => rw [hacc] at hn; simp at hn
        | cons a tl =>
          rw [hacc] at hh hn
          simp at hh
          cases hc : conf.maxNodes with
          | zero => rw [hc] at hn; simp at hn
          | succ m =>
            rw [hc] at hn
            simp [List.take_succ_cons] at hn
            simp_all

/-- Witness for `c8_merge_key_uniqueness`: merging two single-chunk trees
that each use key 1 for their root. -/
theorem c8_merge_key_uniqueness_witness :
    merge_mindmaps false defaultConf 50 [rootOnlyA, rootOnlyB] =
      some mergedRootsOut ∧
    ((mergedRootsOut.nodeDataArray.getD []).map Node.key).Nodup ∧
    (∀ n, (mergedRootsOut.nodeDataArray.getD []).head? = some n → n.key = 0) :=
  ⟨by decide,
   (c8_merge_key_uniqueness false defaultConf 50 [rootOnlyA, rootOnlyB]
     mergedRootsOut (by decide)).1,
   (c8_merge_key_uniqueness false defaultConf 50 [rootOnlyA, rootOnlyB]
     mergedRootsOut (by decide)).2⟩

/-- Strict advance of the chunk loop: when the iteration does not end the
loop, the next start `max(0, end - overlap)` lies strictly beyond the
current start, provided `5 * overlap <= 3 * size` (the sentence-boundary
pullback keeps the window span above 60% of the size). -/
theorem chunk_step_advance (t : List Char) (sizeN ov : Nat) (start : Nat)
    (hs : 1 ≤ sizeN) (hb : 5 * ov ≤ 3 * sizeN) (hlt : start < t.length)
    (hnb : ¬ t.length ≤ (chunkStep t sizeN start).2) :
    start < (chunkStep t sizeN start).2 - ov := by
  simp only [chunkStep, chunkEnd] at hnb ⊢
  rcases hsi : sentinelIdx ((t.drop start).take (min t.length (start + sizeN) - start)) with _ | lp
  · simp only [hsi] at hnb ⊢
    omega
  · simp only [hsi] at hnb ⊢
    by_cases hcond : 3 * sizeN < 5 * (lp + 1)
    · simp only [if_pos hcond] at hnb ⊢
      omega
    · simp only [if_neg hcond] at hnb ⊢
      omega

/-- Termination of the chunk loop under the strict-advance condition: with
fuel exceeding the remaining length, the loop returns a list of non-empty
chunks. -/
theorem chunk_aux_total (t : List Char) (sizeN ov : Nat)
    (hs : 1 ≤ sizeN) (hb : 5 * ov ≤ 3 * sizeN) :
    ∀ (fuel start : Nat), t.length - start < fuel →
      ∃ cs, chunkAux t sizeN ov fuel start = some cs ∧ ∀ c ∈ cs, c ≠ [] := by
  intro fuel
  induction fuel with
  | zero => intro start h; omega
  | succ fuel ih =>
    intro start h
    by_cases hlt : start < t.length
    · by_cases hend : t.length ≤ (chunkStep t sizeN start).2
      · refine ⟨if (chunkStep t sizeN start).1.isEmpty then [] else [(chunkStep t sizeN start).1], ?_, ?_⟩
        · simp [chunkAux, hlt, hend]
        · intro c hc
          by_cases he : (chunkStep t sizeN start).1.isEmpty
          · simp [he] at hc
          · simp [he] at hc
            subst hc
            simpa using he
      · have hadv := chunk_step_advance t sizeN ov start hs hb hlt hend
        obtain ⟨cs, hcs, hne⟩ := ih ((chunkStep t sizeN start).2 - ov) (by omega)
        refine ⟨if (chunkStep t sizeN start).1.isEmpty then cs else (chunkStep t sizeN start).1 :: cs, ?_, ?_⟩
        · simp [chunkAux, hlt, hend, hcs]
        · intro c hc
          by_cases he : (chunkStep t sizeN start).1.isEmpty
          · simp [he] at hc
            exact hne c hc
          · simp [he] at hc
            rcases hc with hc | hc
            · subst hc
              simpa using he
            · exact hne c hc
    · exact ⟨[], by simp [chunkAux, hlt], by simp⟩

/-- Claim C6 (amended): for every text, every size > 0, and every overlap
with 0 <= overlap and 5*overlap <= 3*size (the defaults 1800/250 satisfy
this), every non-final iteration advances the next start strictly beyond the
previous one, and the splitter terminates with a finite list of non-empty
chunks. -/
theorem c6_amended (t : String) (size overlap : Int)
    (hs : 0 < size) (ho : 0 ≤ overlap) (hb : 5 * overlap ≤ 3 * size) :
    (∀ start, start < t.toList.length →
      ¬ t.toList.length ≤ (chunkStep t.toList size.toNat start).2 →
      start < (chunkStep t.toList size.toNat start).2 - overlap.toNat) ∧
    ∃ cs, chunk_text t size overlap = some cs ∧ ∀ c ∈ cs, c ≠ "" := by
  have hs2 : 1 ≤ size.toNat := by omega
  have hb2 : 5 * overlap.toNat ≤ 3 * size.toNat := by omega
  constructor
  · intro start hlt hnb
    exact chunk_step_advance t.toList size.toNat overlap.toNat start hs2 hb2 hlt hnb
  · unfold chunk_text
    rw [if_neg (by omega)]
    obtain ⟨cs, hcs, hne⟩ := chunk_aux_total t.toList size.toNat overlap.toNat hs2 hb2
      (t.toList.length + 1) 0 (by omega)
    refine ⟨cs.map String.mk, by rw [hcs]; rfl, ?_⟩
    intro c hc
    simp at hc
    obtain ⟨l, hl, rfl⟩ := hc
    intro hempty
    exact hne l hl (by simpa using congrArg String.data hempty)

/-- Witness for `c6_amended` on a concrete sentence-bearing text with the
strict-advance overlap condition satisfied. -/
theorem c6_amended_witness :
    (0 : Int) < 4 ∧ (0 : Int) ≤ 1 ∧ (5 * 1 : Int) ≤ 3 * 4 ∧
    ((∀ start, start < "ab. cd".toList.length →
      ¬ "ab. cd".toList.length ≤ (chunkStep "ab. cd".toList (4 : Int).toNat start).2 →
      start < (chunkStep "ab. cd".toList (4 : Int).toNat start).2 - (1 : Int).toNat) ∧
    ∃ cs, chunk_text "ab. cd" 4 1 = some cs ∧ ∀ c ∈ cs, c ≠ "") :=
  ⟨by decide, by decide, by decide, c6_amended "ab. cd" 4 1 (by decide) (by decide) (by decide)⟩

/-- Mapping a key-preserving node update leaves the key list unchanged. -/
theorem map_key_map (f : Node → Node) (hf : ∀ n, (f n).key = n.key)
    (l : List Node) : (l.map f).map Node.key = l.map Node.key := by
  rw [List.map_map]
  exact List.map_congr_left (fun n _ => hf n)


/-- The key list is unchanged through the depth, colour, direction, location
and cleanup stages of the normalizer. -/
theorem tail_stage_keys (conf : Conf) (rk : Int) (dm : List (Int × Int))
    (dmap : List (Int × String)) (l : List Node) :
    (((((l.map (setDepth dm)).map (fun n =>
        { n with brush := some (colorFor conf (n.tdepth.getD 0)) })).map (fun n =>
          match dmap.lookup n.key with
          | some d => { n with dir := some d }
          | none => n)).map (fun n =>
            if n.key = rk && locFalsy n.loc then { n with loc := some "0 0" }
            else n)).map cleanupNode).map Node.key = l.map Node.key := by
  rw [map_key_map cleanupNode (fun n => rfl)]
  rw [map_key_map (fun n =>
    if n.key = rk && locFalsy n.loc then { n with loc := some "0 0" } else n)
    (fun n => by dsimp only; split <;> rfl)]
  rw [map_key_map (fun n =>
    match dmap.lookup n.key with
    | some d => { n with dir := some d }
    | none => n)
    (fun n => by dsimp only; cases h : List.lookup n.key dmap <;> simp [h])]
  rw [map_key_map (fun n =>
    { n with brush := some (colorFor conf (n.tdepth.getD 0)) }) (fun n => rfl)]
  rw [map_key_map (setDepth dm) (fun n => by unfold setDepth; split <;> rfl)]

/-- Claim C2 (amended): whenever the normalizer finds a root, the output
node list fits the configured cap and its keys are an order-preserving
sublist of the keys of the first `maxNodes` input nodes: the cap is enforced
by prefix truncation, and everything after it only filters. -/
theorem c2_amended (conf : Conf) (data : MindMap) (ns : List Node)
    (root : Node) (hns : data.nodeDataArray = some ns)
    (hroot : findRootLast ns = some root) :
    ((post_process_mindmap conf data).nodeDataArray.getD []).length ≤
      conf.maxNodes ∧
    List.Sublist
      (((post_process_mindmap conf data).nodeDataArray.getD []).map Node.key)
      ((ns.take conf.maxNodes).map Node.key) := by
  have hne : ¬ ns.isEmpty = true := by
    intro he
    rw [List.isEmpty_iff] at he
    subst he
    simp [findRootLast] at hroot
  simp only [post_process_mindmap, hns, hroot, if_neg hne, Option.getD_some]
  constructor
  · simp only [List.length_map]
    split
    · exact le_trans (List.length_filter_le _ _)
        (by simp only [List.length_map]
            exact le_trans (List.length_filter_le _ _) (List.length_take_le _ _))
    · simp only [List.length_map]
      exact le_trans (List.length_filter_le _ _) (List.length_take_le _ _)
  · rw [tail_stage_keys]
    split
    · refine List.Sublist.trans (List.Sublist.map _ (List.filter_sublist _)) ?_
      rw [map_key_map _ (fun n => by unfold setDepth; split <;> rfl)]
      exact List.Sublist.map _ (List.filter_sublist _)
    · rw [map_key_map _ (fun n => by unfold setDepth; split <;> rfl)]
      exact List.Sublist.map _ (List.filter_sublist _)

/-- Witness for `c2_amended` on a concrete four-node tree. -/
theorem c2_amended_witness :
    ({ className := none,
       nodeDataArray := some [mkNode 0 "Root" none, mkNode 1 "A" (some (some 0))] }
        : MindMap).nodeDataArray =
      some [mkNode 0 "Root" none, mkNode 1 "A" (some (some 0))] ∧
    findRootLast [mkNode 0 "Root" none, mkNode 1 "A" (some (some 0))] =
      some (mkNode 0 "Root" none) ∧
    (((post_process_mindmap defaultConf
        { className := none,
          nodeDataArray := some [mkNode 0 "Root" none, mkNode 1 "A" (some (some 0))] }).nodeDataArray.getD
          []).length ≤ defaultConf.maxNodes ∧
     List.Sublist
       (((post_process_mindmap defaultConf
         { className := none,
           nodeDataArray := some [mkNode 0 "Root" none, mkNode 1 "A" (some (some 0))] }).nodeDataArray.getD
           []).map Node.key)
       (([mkNode 0 "Root" none, mkNode 1 "A" (some (some 0))].take
         defaultConf.maxNodes).map Node.key)) :=
  ⟨rfl, by decide,
   c2_amended defaultConf
     { className := none,
       nodeDataArray := some [mkNode 0 "Root" none, mkNode 1 "A" (some (some 0))] }
     [mkNode 0 "Root" none, mkNode 1 "A" (some (some 0))]
     (mkNode 0 "Root" none) rfl (by decide)⟩

/-- `dropFencesF` is fuel-irrelevant once the fuel covers the length. -/
theorem dropFencesF_fuel : ∀ (fuel1 fuel2 : Nat) (l : List Char),
    l.length ≤ fuel1 → l.length ≤ fuel2 →
    dropFencesF fuel1 l = dropFencesF fuel2 l := by
  intro fuel1
  induction fuel1 with
  | zero =>
    intro fuel2 l h1 h2
    have hl : l = [] := by
      cases l with
      | nil => rfl
      | cons c r => simp at h1
    subst hl
    cases fuel2 <;> rfl
  | succ fuel1 ih =>
    intro fuel2 l h1 h2
    cases l with
    | nil => cases fuel2 <;> rfl
    | cons c r =>
      cases fuel2 with
      | zero => simp at h2
      | succ fuel2 =>
        simp only [dropFencesF]
        have hd1 : ((r.drop 6).dropWhile isWs).length ≤ (r.drop 6).length :=
          (List.dropWhile_sublist isWs).length_le
        have hd2 : (r.drop 6).length ≤ r.length := by
          simp [List.length_drop]
        simp only [List.length_cons] at h1 h2
        split
        · exact ih fuel2 _ (by omega) (by omega)
        · rw [ih fuel2 r (by omega) (by omega)]

/-- A backtick-free prefix passes through the fence scanner untouched. -/
theorem dropFencesF_append_nb : ∀ (l t : List Char),
    (∀ c ∈ l, c ≠ '`') → ∀ fuel, l.length + t.length ≤ fuel →
    dropFencesF fuel (l ++ t) = l ++ dropFencesF t.length t := by
  intro l
  induction l with
  | nil =>
    intro t hnb fuel hf
    simp only [List.nil_append]
    exact dropFencesF_fuel fuel t.length t (by simpa using hf) (le_refl _)
  | cons c l2 ih =>
    intro t hnb fuel hf
    cases fuel with
    | zero => simp at hf
    | succ fuel =>
      simp only [List.cons_append, dropFencesF]
      have hcb : c ≠ '`' := hnb c (by simp)
      rw [if_neg]
      · simp only [List.append_eq]
        rw [ih t (fun x hx => hnb x (by simp [hx])) fuel
          (by simp at hf; omega)]
      · intro hp
        have hpp := List.isPrefixOf_iff_prefix.mp hp
        obtain ⟨u, hu⟩ := hpp
        simp [fencePat] at hu
        exact hcb hu.1.symm

/-- `dropTrailFenceF` is fuel-irrelevant once the fuel covers the length. -/
theorem dropTrailFenceF_fuel : ∀ (fuel1 fuel2 : Nat) (l : List Char),
    l.length ≤ fuel1 → l.length ≤ fuel2 →
    dropTrailFenceF fuel1 l = dropTrailFenceF fuel2 l := by
  intro fuel1
  induction fuel1 with
  | zero =>
    intro fuel2 l h1 h2
    have hl : l = [] := by
      cases l with
      | nil => rfl
      | cons c r => simp at h1
    subst hl
    cases fuel2 <;> rfl
  | succ fuel1 ih =>
    intro fuel2 l h1 h2
    cases l with
    | nil => cases fuel2 <;> rfl
    | cons c r =>
      cases fuel2 with
      | zero => simp at h2
      | succ fuel2 =>
        simp only [dropTrailFenceF]
        simp only [List.length_cons] at h1 h2
        split
        · rcases hfe : fenceEnd (r.drop 2) with _ | j
          · rw [ih fuel2 r (by omega) (by omega)]
          · have hl1 : ((r.drop 2).drop j).length ≤ r.length := by
              simp [List.length_drop]
            exact ih fuel2 _ (by omega) (by omega)
        · rw [ih fuel2 r (by omega) (by omega)]

/-- A backtick-free prefix passes through the trailing-fence scanner
untouched. -/
theorem dropTrailFenceF_append_nb : ∀ (l t : List Char),
    (∀ c ∈ l, c ≠ '`') → ∀ fuel, l.length + t.length ≤ fuel →
    dropTrailFenceF fuel (l ++ t) = l ++ dropTrailFenceF t.length t := by
  intro l
  induction l with
  | nil =>
    intro t hnb fuel hf
    simp only [List.nil_append]
    exact dropTrailFenceF_fuel fuel t.length t (by simpa using hf) (le_refl _)
  | cons c l2 ih =>
    intro t hnb fuel hf
    cases fuel with
    | zero => simp at hf
    | succ fuel =>
      simp only [List.cons_append, dropTrailFenceF]
      have hcb : c ≠ '`' := hnb c (by simp)
      rw [if_neg]
      · simp only [List.append_eq]
        rw [ih t (fun x hx => hnb x (by simp [hx])) fuel
          (by simp at hf; omega)]
      · intro hp
        have hpp := List.isPrefixOf_iff_prefix.mp hp
        obtain ⟨u, hu⟩ := hpp
        simp [trailPat] at hu
        exact hcb hu.1.symm

/-- `(String.mk l).toList = l`. -/
theorem toList_mk (l : List Char) : (String.mk l).toList = l :=
  rfl

/-- A list headed by a non-whitespace character survives `dropWhile`. -/
theorem dropWhile_head_ne (l : List Char) (c : Char) (h : l.head? = some c)
    (hc : isWs c = false) : l.dropWhile isWs = l := by
  cases l with
  | nil => rfl
  | cons a r =>
    simp at h
    subst h
    simp [List.dropWhile_cons, hc]

/-- A brace-delimited list is left unchanged by `trimChars`. -/
theorem trim_self (l : List Char) (hh : l.head? = some '\x7b')
    (hl : l.getLast? = some '\x7d') : trimChars l = l := by
  unfold trimChars
  rw [dropWhile_head_ne l '\x7b' hh (by decide)]
  rw [dropWhile_head_ne l.reverse '\x7d' (by rw [List.head?_reverse]; exact hl)
    (by decide)]
  exact List.reverse_reverse l

/-- A brace-delimited list decomposes as an opening brace, a middle, and a
closing brace. -/
theorem brace_decomp (l : List Char) (hh : l.head? = some '\x7b')
    (hl : l.getLast? = some '\x7d') (hlen : 2 ≤ l.length) :
    ∃ mid, l = '\x7b' :: (mid ++ ['\x7d']) := by
  obtain ⟨init, hinit⟩ := List.getLast?_eq_some_iff.mp hl
  cases init with
  | nil =>
    subst hinit
    simp at hlen
  | cons c mid =>
    subst hinit
    simp at hh
    subst hh
    exact ⟨mid, by simp⟩

/-- A brace-delimited list is its own brace slice. -/
theorem jsonSlice_self (mid : List Char) :
    jsonSlice ('\x7b' :: (mid ++ ['\x7d'])) = '\x7b' :: (mid ++ ['\x7d']) := by
  simp only [jsonSlice, firstIdx, lastIdx]
  rw [show ('\x7b' :: (mid ++ ['\x7d'])).reverse = '\x7d' :: (mid.reverse ++ ['\x7b'])
    from by simp]
  simp +decide only [List.findIdx?_cons, if_true, if_false, Option.map_some']
  simp only [List.length_cons, List.length_append, List.length_reverse,
    List.drop_zero]
  rw [if_pos (by omega)]
  rw [show mid.length + ([].length + 1) + 1 - 1 - 0 - 0 + 1 =
      ('\x7b' :: (mid ++ ['\x7d'])).length from by simp]
  exact List.take_length _

/-- The brace slice of a brace-delimited list with a trailing newline
recovers the list. -/
theorem jsonSlice_newline (mid : List Char) :
    jsonSlice (('\x7b' :: (mid ++ ['\x7d'])) ++ ['\n']) =
      '\x7b' :: (mid ++ ['\x7d']) := by
  simp only [jsonSlice, firstIdx, lastIdx]
  rw [show (('\x7b' :: (mid ++ ['\x7d'])) ++ ['\n']).reverse =
      '\n' :: '\x7d' :: (mid.reverse ++ ['\x7b']) from by simp]
  rw [show (('\x7b' :: (mid ++ ['\x7d'])) ++ ['\n']) = '\x7b' :: (mid ++ ['\x7d', '\n'])
    from by simp]
  simp +decide only [List.findIdx?_cons, if_true, if_false, Option.map_some']
  simp only [List.length_cons, List.length_append, List.drop_zero]
  rw [if_pos (by omega)]
  rw [show mid.length + ([].length + 1 + 1) + 1 - 1 - (0 + 1) - 0 + 1 =
      ('\x7b' :: (mid ++ ['\x7d'])).length from by simp]
  rw [show ('\x7b' :: (mid ++ ['\x7d', '\n'])) = ('\x7b' :: (mid ++ ['\x7d'])) ++ ['\n']
    from by simp]
  exact List.take_left _ _

/-- `String.mk` inverts `String.toList`. -/
theorem mk_toList (s : String) : String.mk s.toList = s :=
  rfl

/-- One scanner step on an occurrence of the fence marker: the marker and
the whitespace run after it are removed. -/
theorem dropFencesF_fence_step (fuel : Nat) (t : List Char) :
    dropFencesF (fuel + 1)
        ('`' :: '`' :: '`' :: 'j' :: 's' :: 'o' :: 'n' :: t) =
      dropFencesF fuel (t.dropWhile isWs) := by
  simp only [dropFencesF]
  rw [if_pos]
  · rfl
  · exact List.isPrefixOf_iff_prefix.mpr ⟨t, rfl⟩

/-- The cleaning pipeline (fence stripping, brace slicing, strip, brace
slicing) on a fenced backtick-free brace-delimited payload recovers the
payload exactly. -/
theorem c7_slice (s : String) (hnb : ∀ c ∈ s.toList, c ≠ '`')
    (hh : s.toList.head? = some '\x7b')
    (hl : s.toList.getLast? = some '\x7d')
    (hlen : 2 ≤ s.toList.length) :
    cleanedSlice ("```json\n" ++ s ++ "\n```") = s := by
  obtain ⟨mid, hmid⟩ := brace_decomp s.toList hh hl hlen
  have htl : ("```json\n" ++ s ++ "\n```").toList =
      '`' :: '`' :: '`' :: 'j' :: 's' :: 'o' :: 'n' ::
        ('\n' :: (s.toList ++ ['\n', '`', '`', '`'])) := by
    simp [String.toList]
  have htail : dropFencesF (['\n', '`', '`', '`'] : List Char).length
      ['\n', '`', '`', '`'] = ['\n', '`', '`', '`'] := by decide
  have htr : dropTrailFenceF (['\n', '`', '`', '`'] : List Char).length
      ['\n', '`', '`', '`'] = ['\n'] := by decide
  simp only [cleanedSlice, dropFences, dropTrailFence, htl, toList_mk]
  rw [dropFencesF_fuel
      ('`' :: '`' :: '`' :: 'j' :: 's' :: 'o' :: 'n' ::
        ('\n' :: (s.toList ++ ['\n', '`', '`', '`']))).length
      (s.toList.length + 11 + 1) _ (by simp) (by simp)]
  rw [dropFencesF_fence_step (s.toList.length + 11)
      ('\n' :: (s.toList ++ ['\n', '`', '`', '`']))]
  rw [show ('\n' :: (s.toList ++ ['\n', '`', '`', '`'])).dropWhile isWs =
      (s.toList ++ ['\n', '`', '`', '`']).dropWhile isWs from by
    rw [List.dropWhile_cons, if_pos (by decide)]]
  rw [dropWhile_head_ne (s.toList ++ ['\n', '`', '`', '`']) '\x7b'
      (by rw [hmid]; rfl) (by decide)]
  rw [dropFencesF_append_nb s.toList ['\n', '`', '`', '`'] hnb
      (s.toList.length + 11) (by simp)]
  rw [htail]
  rw [dropTrailFenceF_append_nb s.toList ['\n', '`', '`', '`'] hnb
      (s.toList ++ ['\n', '`', '`', '`']).length (by simp)]
  rw [htr, hmid]
  rw [show ('\x7b' :: (mid ++ ['\x7d'])) ++ ['\n'] =
      ('\x7b' :: (mid ++ ['\x7d'])) ++ ['\n'] from rfl]
  rw [jsonSlice_newline mid]
  rw [← hmid, trim_self s.toList hh hl, hmid, jsonSlice_self mid, ← hmid]
  exact mk_toList s

/-- Claim C7 (amended): for every payload string that is a top-level JSON
object (first character an opening brace, last a closing brace) containing
no backtick, and every strict parser that accepts the payload, the
extractor applied to the payload wrapped in a markdown code fence returns
exactly the strict parse of the payload. -/
theorem c7_amended {α : Type} (loads : String → Option α)
    (repairJson : String → String) (s : String) (v : α)
    (hnb : ∀ c ∈ s.toList, c ≠ '`')
    (hh : s.toList.head? = some '\x7b')
    (hl : s.toList.getLast? = some '\x7d')
    (hlen : 2 ≤ s.toList.length)
    (hv : loads s = some v) :
    clean_and_parse_json loads repairJson ("```json\n" ++ s ++ "\n```") =
      some v := by
  have hcs := c7_slice s hnb hh hl hlen
  simp only [cleanedSlice] at hcs
  simp only [clean_and_parse_json]
  rw [hcs, hv]

/-- Witness for C7 (amended): the payload `\x7b"a": 1\x7d` satisfies the
hypotheses, and the extractor on its fenced form returns its strict parse. -/
theorem c7_amended_witness :
    (∀ c ∈ ("\x7b\"a\": 1\x7d" : String).toList, c ≠ '`') ∧
    ("\x7b\"a\": 1\x7d" : String).toList.head? = some '\x7b' ∧
    ("\x7b\"a\": 1\x7d" : String).toList.getLast? = some '\x7d' ∧
    2 ≤ ("\x7b\"a\": 1\x7d" : String).toList.length ∧
    miniLoads "\x7b\"a\": 1\x7d" = some (JVal.jobj [("a", JVal.jnum 1)]) ∧
    clean_and_parse_json miniLoads id
        ("```json\n" ++ "\x7b\"a\": 1\x7d" ++ "\n```") =
      some (JVal.jobj [("a", JVal.jnum 1)]) :=
  ⟨by decide, by decide, by decide, by decide, rfl,
    c7_amended miniLoads id "\x7b\"a\": 1\x7d" (JVal.jobj [("a", JVal.jnum 1)])
      (by decide) (by decide) (by decide) (by decide) rfl⟩

/-- The root-search fold returns its accumulator when no node is
parentless. -/
theorem foldl_root_nil (ns : List Node)
    (h : ns.filter (fun n => getParent n == none) = []) :
    ∀ acc : Option Node,
      ns.foldl (fun acc n => if getParent n = none then some n else acc) acc =
        acc := by
  induction ns with
  | nil => intro acc; rfl
  | cons c rest ih =>
    intro acc
    simp only [List.filter_cons] at h
    by_cases hc : getParent c = none
    · rw [if_pos (by simp [hc])] at h
      exact absurd h (List.cons_ne_nil _ _)
    · rw [if_neg (by simp [hc])] at h
      simp only [List.foldl_cons, if_neg hc]
      exact ih h acc

/-- The root-search fold returns the unique parentless node. -/
theorem foldl_root_single (ns : List Node) (r : Node)
    (h : ns.filter (fun n => getParent n == none) = [r]) :
    ∀ acc : Option Node,
      ns.foldl (fun acc n => if getParent n = none then some n else acc) acc =
        some r := by
  induction ns with
  | nil => simp at h
  | cons c rest ih =>
    intro acc
    simp only [List.filter_cons] at h
    by_cases hc : getParent c = none
    · rw [if_pos (by simp [hc])] at h
      rw [List.cons.injEq] at h
      simp only [List.foldl_cons, if_pos hc]
      rw [foldl_root_nil rest h.2 (some c), h.1]
    · rw [if_neg (by simp [hc])] at h
      simp only [List.foldl_cons, if_neg hc]
      exact ih h acc

/-- When exactly one node is parentless, the normalizer's last-wins root
lookup finds it. -/
theorem findRootLast_single (ns : List Node) (r : Node)
    (h : ns.filter (fun n => getParent n == none) = [r]) :
    findRootLast ns = some r :=
  foldl_root_single ns r h none

/-- Every key of the orphan seed set belongs to a skeleton entry with a
non-null parent reference. -/
theorem orphanInit_parented (sk : List Sk) :
    ∀ k ∈ orphanInit sk, ∃ s ∈ sk, s.1 = k ∧ s.2.1 ≠ none := by
  intro k hk
  simp only [orphanInit, List.mem_toFinset, List.mem_map] at hk
  obtain ⟨s, hs, hk1⟩ := hk
  rw [List.mem_filter] at hs
  refine ⟨s, hs.1, hk1, ?_⟩
  rcases hp : s.2.1 with _ | p
  · rw [hp] at hs
    simp at hs
  · simp

/-- One cascade step preserves the parented-key property. -/
theorem orphanStep_parented (sk : List Sk) (S : Finset Int)
    (hS : ∀ k ∈ S, ∃ s ∈ sk, s.1 = k ∧ s.2.1 ≠ none) :
    ∀ k ∈ orphanStep sk S, ∃ s ∈ sk, s.1 = k ∧ s.2.1 ≠ none := by
  intro k hk
  rw [orphanStep, Finset.mem_union] at hk
  rcases hk with hk | hk
  · exact hS k hk
  · simp only [List.mem_toFinset, List.mem_map] at hk
    obtain ⟨s, hs, hk1⟩ := hk
    rw [List.mem_filter] at hs
    refine ⟨s, hs.1, hk1, ?_⟩
    rcases hp : s.2.1 with _ | p
    · rw [hp] at hs
      simp at hs
    · simp

/-- The fixpoint iteration preserves any invariant of the step function. -/
theorem iterToFix_pres (g : Finset Int → Finset Int) (P : Finset Int → Prop)
    (hg : ∀ S, P S → P (g S)) :
    ∀ (fuel : Nat) (S : Finset Int), P S → P (iterToFix g fuel S)
  | 0, _, h => h
  | fuel + 1, S, h => by
    rw [iterToFix]
    split
    · exact h
    · exact iterToFix_pres g P hg fuel (g S) (hg S h)

/-- Every key the orphan cascade collects is the key of a node with a
non-null parent reference. -/
theorem orphanKeys_parented (sk : List Sk) :
    ∀ k ∈ orphanKeys sk, ∃ s ∈ sk, s.1 = k ∧ s.2.1 ≠ none :=
  iterToFix_pres (orphanStep sk)
    (fun S => ∀ k ∈ S, ∃ s ∈ sk, s.1 = k ∧ s.2.1 ≠ none)
    (orphanStep_parented sk) _ _ (orphanInit_parented sk)

/-- Folding an accumulator-monotone set function only grows the
accumulator. -/
theorem foldl_keep_mono {β : Type} (f : Finset Int → β → Finset Int)
    (hf : ∀ a b, a ⊆ f a b) :
    ∀ (l : List β) (a : Finset Int), a ⊆ l.foldl f a
  | [], a => Finset.Subset.refl a
  | b :: l, a => Finset.Subset.trans (hf a b) (foldl_keep_mono f hf l (f a b))

/-- `dfs_keep` only ever adds keys to its accumulator. -/
theorem keepGo_mono (conf : Conf) (sk : List Sk) :
    ∀ (fuel : Nat) (k : Int) (t : String) (d : Nat) (acc : Finset Int),
      acc ⊆ keepGo conf sk fuel k t d acc := by
  intro fuel
  induction fuel with
  | zero => intro k t d acc; exact Finset.Subset.refl acc
  | succ fuel ih =>
    intro k t d acc
    rw [keepGo]
    split
    · exact Finset.Subset.trans (Finset.subset_insert k acc)
        (foldl_keep_mono _ (fun (a : Finset Int) (ct : Int × String) => ih ct.1 ct.2 (d + 1) a) _ _)
    · exact Finset.Subset.refl acc

/-- A root whose text passes the keep condition is in the keep set. -/
theorem root_mem_dfsKeepSet (conf : Conf) (sk : List Sk) (rk : Int)
    (rt : String) (h : keepCond conf rt 0 = true) :
    rk ∈ dfsKeepSet conf sk rk rt := by
  rw [dfsKeepSet, keepGo, if_pos h]
  exact foldl_keep_mono _ (fun (a : Finset Int) (ct : Int × String) => keepGo_mono conf sk _ ct.1 ct.2 _ a) _ _
    (Finset.mem_insert_self rk ∅)

/-- `setDepth` only touches the transient depth field. -/
theorem setDepth_parent (dm : List (Int × Int)) (n : Node) :
    (setDepth dm n).parent = n.parent := by
  unfold setDepth
  split <;> rfl

/-- `setDepth` preserves the key. -/
theorem setDepth_key (dm : List (Int × Int)) (n : Node) :
    (setDepth dm n).key = n.key := by
  unfold setDepth
  split <;> rfl

/-- `setDepth` preserves the parent reference. -/
theorem setDepth_getParent (dm : List (Int × Int)) (n : Node) :
    getParent (setDepth dm n) = getParent n := by
  unfold getParent
  rw [setDepth_parent]

/-- Cleanup never leaves an explicit null parent behind. -/
theorem cleanup_parent_ne (n : Node) : (cleanupNode n).parent ≠ some none := by
  unfold cleanupNode
  dsimp only
  split
  · simp
  · assumption

/-- Cleanup erases the parent field exactly on the nodes whose parent
reference reads as None. -/
theorem cleanup_parent_beq (n : Node) :
    ((cleanupNode n).parent == (none : Option (Option Int))) =
      (getParent n == none) := by
  unfold cleanupNode getParent
  dsimp only
  rcases hp : n.parent with _ | q
  · simp [hp]
  · rcases q with _ | p <;> simp [hp]

/-- Filtering a mapped list with a predicate the map transports is the map
of the filtered list. -/
theorem filter_map_pres (f : Node → Node) (p q : Node → Bool)
    (h : ∀ n, p (f n) = q n) :
    ∀ l : List Node, (l.map f).filter p = (l.filter q).map f
  | [] => rfl
  | c :: rest => by
    simp only [List.map_cons, List.filter_cons, h c]
    cases hq : q c with
    | false =>
      simp only [Bool.false_eq_true, if_false]
      exact filter_map_pres f p q h rest
    | true =>
      simp only [if_true, List.map_cons]
      rw [filter_map_pres f p q h rest]

/-- The parentless-node filter commutes with the depth, colour, direction,
location and cleanup stages of the normalizer. -/
theorem tail_stage_parentless (conf : Conf) (rk : Int) (dm : List (Int × Int))
    (dmap : List (Int × String)) (l : List Node) :
    (((((l.map (setDepth dm)).map (fun n =>
        { n with brush := some (colorFor conf (n.tdepth.getD 0)) })).map (fun n =>
          match dmap.lookup n.key with
          | some d => { n with dir := some d }
          | none => n)).map (fun n =>
            if n.key = rk && locFalsy n.loc then { n with loc := some "0 0" }
            else n)).map cleanupNode).filter
        (fun n => n.parent == (none : Option (Option Int))) =
      (((((l.filter (fun n => getParent n == none)).map
          (setDepth dm)).map (fun n =>
        { n with brush := some (colorFor conf (n.tdepth.getD 0)) })).map (fun n =>
          match dmap.lookup n.key with
          | some d => { n with dir := some d }
          | none => n)).map (fun n =>
            if n.key = rk && locFalsy n.loc then { n with loc := some "0 0" }
            else n)).map cleanupNode := by
  rw [filter_map_pres cleanupNode
    (fun n => n.parent == (none : Option (Option Int)))
    (fun n => getParent n == none) cleanup_parent_beq]
  rw [filter_map_pres (fun n =>
      if n.key = rk && locFalsy n.loc then { n with loc := some "0 0" } else n)
    (fun n => getParent n == none) (fun n => getParent n == none)
    (fun n => by dsimp only; split <;> rfl)]
  rw [filter_map_pres (fun n =>
      match dmap.lookup n.key with
      | some d => { n with dir := some d }
      | none => n)
    (fun n => getParent n == none) (fun n => getParent n == none)
    (fun n => by dsimp only; cases h : List.lookup n.key dmap <;> simp [h, getParent])]
  rw [filter_map_pres (fun n =>
      { n with brush := some (colorFor conf (n.tdepth.getD 0)) })
    (fun n => getParent n == none) (fun n => getParent n == none)
    (fun n => rfl)]
  rw [filter_map_pres (setDepth dm)
    (fun n => getParent n == none) (fun n => getParent n == none)
    (fun n => by dsimp only; rw [setDepth_getParent])]

/-- The keep-prune stage, run or skipped, keeps the unique parentless node
when that node is in the keep set. -/
theorem keep_stage_filter (conf : Conf) (K : Finset Int) (l : List Node)
    (x : Node) (hx : l.filter (fun n => getParent n == none) = [x])
    (hkx : keepFilter K x = true) :
    (if K.card ≠ l.length ∧ 0 ≤ conf.maxDepth
     then l.filter (keepFilter K)
     else l).filter (fun n => getParent n == none) = [x] := by
  split
  · rw [List.filter_comm, hx]
    simp [List.filter_cons, hkx]
  · exact hx

/-- After the orphan stage, the remaining pipeline stages keep exactly one
parentless node: the root survives depth assignment, the keep prune, colour,
direction, location and cleanup, cleanup erases its null parent marker, and
no other output node lacks a parent. -/
theorem stages_root_unique (conf : Conf) (ns2 : List Node) (r : Node)
    (K : Finset Int) (dm2 dm5 : List (Int × Int)) (dmap : List (Int × String))
    (os : List Node)
    (hos : os =
      (((((if K.card ≠ (ns2.map (setDepth dm2)).length ∧ 0 ≤ conf.maxDepth
           then (ns2.map (setDepth dm2)).filter (keepFilter K)
           else ns2.map (setDepth dm2)).map (setDepth dm5)).map (fun n =>
          { n with brush := some (colorFor conf (n.tdepth.getD 0)) })).map (fun n =>
            match dmap.lookup n.key with
            | some d => { n with dir := some d }
            | none => n)).map (fun n =>
              if n.key = r.key && locFalsy n.loc then { n with loc := some "0 0" }
              else n)).map cleanupNode)
    (h2 : ns2.filter (fun n => getParent n == none) = [r])
    (hrp : getParent r = none)
    (hK : r.key ∈ K) :
    (os.filter (fun n => n.parent == (none : Option (Option Int)))).length = 1 ∧
    (∀ n ∈ os, n.parent = none → n.key = r.key) ∧
    (∀ n ∈ os, n.parent ≠ some none) := by
  subst hos
  have hns3 : (ns2.map (setDepth dm2)).filter (fun n => getParent n == none) =
      [setDepth dm2 r] := by
    rw [filter_map_pres (setDepth dm2) (fun n => getParent n == none)
      (fun n => getParent n == none)
      (fun n => by dsimp only; rw [setDepth_getParent]), h2]
    rfl
  have hkx : keepFilter K (setDepth dm2 r) = true := by
    unfold keepFilter
    rw [setDepth_key, setDepth_getParent, hrp]
    simp [hK]
  have hns4 := keep_stage_filter conf K (ns2.map (setDepth dm2))
    (setDepth dm2 r) hns3 hkx
  have hOs := tail_stage_parentless conf r.key dm5 dmap
    (if K.card ≠ (ns2.map (setDepth dm2)).length ∧ 0 ≤ conf.maxDepth
     then (ns2.map (setDepth dm2)).filter (keepFilter K)
     else ns2.map (setDepth dm2))
  rw [hns4] at hOs
  refine ⟨?_, ?_, ?_⟩
  · rw [hOs]
    rfl
  · intro n hn hpn
    have hnf : n ∈ List.filter
        (fun m => m.parent == (none : Option (Option Int))) _ :=
      List.mem_filter.mpr ⟨hn, by simp [hpn]⟩
    rw [hOs] at hnf
    have hkeys := tail_stage_keys conf r.key dm5 dmap [setDepth dm2 r]
    have hmem := List.mem_map_of_mem Node.key hnf
    rw [hkeys] at hmem
    simp only [List.map_cons, List.map_nil, setDepth_key,
      List.mem_singleton] at hmem
    exact hmem
  · intro n hn
    obtain ⟨m, _, hfm⟩ := List.mem_map.mp hn
    rw [← hfm]
    exact cleanup_parent_ne m

/-- Claim C5: for a non-degenerate input (a node list with unique keys,
exactly one parentless node, within the node cap, whose root text passes the
keep condition), exactly one output node lacks a parent field, that node is
the root, every other node carries an integer parent key, and no output node
carries an explicit null parent. -/
theorem c5_root_uniqueness (conf : Conf) (data : MindMap) (ns : List Node)
    (r : Node) (hns : data.nodeDataArray = some ns)
    (hone : ns.filter (fun n => getParent n == none) = [r])
    (hnd : (ns.map Node.key).Nodup)
    (hlen : ns.length ≤ conf.maxNodes)
    (hkeep : keepCond conf r.text 0 = true) :
    ∃ os, (post_process_mindmap conf data).nodeDataArray = some os ∧
      (os.filter (fun n => n.parent == (none : Option (Option Int)))).length
        = 1 ∧
      (∀ n ∈ os, n.parent = none → n.key = r.key) ∧
      (∀ n ∈ os, n.parent ≠ some none) := by
  have hroot : findRootLast ns = some r := findRootLast_single ns r hone
  have hne : ¬ ns.isEmpty = true := by
    intro he
    rw [List.isEmpty_iff] at he
    subst he
    simp at hone
  have hrmem : r ∈ ns ∧ (getParent r == none) = true :=
    List.mem_filter.mp (by rw [hone]; exact List.mem_singleton.mpr rfl)
  have hrp : getParent r = none := by simpa using hrmem.2
  have hnotorph : r.key ∉ orphanKeys (ns.map skel) := by
    intro hmem
    obtain ⟨s, hs, hk, hp⟩ := orphanKeys_parented (ns.map skel) r.key hmem
    obtain ⟨m, hm, hms⟩ := List.mem_map.mp hs
    have hkey : m.key = r.key := by
      rw [← hms] at hk
      exact hk
    have hmr : m = r := List.inj_on_of_nodup_map hnd hm hrmem.1 (by rw [hkey])
    rw [← hms, hmr] at hp
    exact hp hrp
  have h2 : (ns.filter
      (fun n => !decide (n.key ∈ orphanKeys (ns.map skel)))).filter
        (fun n => getParent n == none) = [r] := by
    rw [List.filter_comm, hone]
    simp [List.filter_cons, hnotorph]
  simp only [post_process_mindmap, hns, hroot, if_neg hne]
  rw [List.take_of_length_le hlen]
  refine ⟨_, rfl, ?_⟩
  generalize hg2 :
    ns.filter (fun n => !decide (n.key ∈ orphanKeys (ns.map skel))) = ns2v
  rw [hg2] at h2
  exact stages_root_unique conf ns2v r
    (dfsKeepSet conf (ns2v.map skel) r.key r.text)
    (depthMap (ns2v.map skel) r.key) _ _ _ rfl h2 hrp
    (root_mem_dfsKeepSet conf (ns2v.map skel) r.key r.text hkeep)

/-- Witness for C5 on a concrete two-node tree: the hypotheses hold and the
normalized output has exactly one parentless node, the root. -/
theorem c5_root_uniqueness_witness :
    ([mkNode 0 "Root" none, mkNode 1 "A" (some (some 0))].filter
        (fun n => getParent n == none) = [mkNode 0 "Root" none]) ∧
    ([mkNode 0 "Root" none, mkNode 1 "A" (some (some 0))].map Node.key).Nodup ∧
    [mkNode 0 "Root" none, mkNode 1 "A" (some (some 0))].length ≤
      defaultConf.maxNodes ∧
    keepCond defaultConf (mkNode 0 "Root" none).text 0 = true ∧
    (∃ os, (post_process_mindmap defaultConf
        { className := none,
          nodeDataArray := some [mkNode 0 "Root" none,
            mkNode 1 "A" (some (some 0))] }).nodeDataArray = some os ∧
      (os.filter (fun n => n.parent == (none : Option (Option Int)))).length
        = 1 ∧
      (∀ n ∈ os, n.parent = none → n.key = (mkNode 0 "Root" none).key) ∧
      (∀ n ∈ os, n.parent ≠ some none)) :=
  ⟨by decide, by decide, by decide, by decide,
   c5_root_uniqueness defaultConf
     { className := none,
       nodeDataArray := some [mkNode 0 "Root" none,
         mkNode 1 "A" (some (some 0))] }
     [mkNode 0 "Root" none, mkNode 1 "A" (some (some 0))]
     (mkNode 0 "Root" none) rfl (by decide) (by decide) (by decide)
     (by decide)⟩

/-- A growing, bounded step function reaches a fixpoint within
`|bound| - |start|` iterations. -/
theorem iterToFix_fix (g : Finset Int → Finset Int) (U : Finset Int)
    (hgrow : ∀ S, S ⊆ g S) (hbound : ∀ S, S ⊆ U → g S ⊆ U) :
    ∀ (fuel : Nat) (S : Finset Int), S ⊆ U → U.card - S.card < fuel →
      g (iterToFix g fuel S) = iterToFix g fuel S := by
  intro fuel
  induction fuel with
  | zero => intro S hS h; omega
  | succ fuel ih =>
    intro S hS h
    rw [iterToFix]
    by_cases hfix : g S = S
    · rw [if_pos hfix]
      exact hfix
    · rw [if_neg hfix]
      apply ih (g S) (hbound S hS)
      have h1 : S.card < (g S).card :=
        Finset.card_lt_card ((hgrow S).ssubset_of_ne (Ne.symm hfix))
      have h2 : (g S).card ≤ U.card := Finset.card_le_card (hbound S hS)
      have h3 : S.card ≤ U.card := Finset.card_le_card hS
      omega

/-- The iteration only grows its argument when the step function grows. -/
theorem iterToFix_grow (g : Finset Int → Finset Int) (hgrow : ∀ S, S ⊆ g S) :
    ∀ (fuel : Nat) (S : Finset Int), S ⊆ iterToFix g fuel S := by
  intro fuel
  induction fuel with
  | zero => intro S; exact Finset.Subset.refl S
  | succ fuel ih =>
    intro S
    rw [iterToFix]
    split
    · exact Finset.Subset.refl S
    · exact Finset.Subset.trans (hgrow S) (ih (g S))

/-- The cascade step only grows the collected set. -/
theorem orphanStep_grow (sk : List Sk) (S : Finset Int) : S ⊆ orphanStep sk S :=
  Finset.subset_union_left

/-- The cascade step stays within the keys of the skeleton list. -/
theorem orphanStep_bound (sk : List Sk) (S : Finset Int)
    (hS : S ⊆ (skKeys sk).toFinset) :
    orphanStep sk S ⊆ (skKeys sk).toFinset := by
  rw [orphanStep]
  apply Finset.union_subset hS
  intro k hk
  simp only [List.mem_toFinset, List.mem_map] at hk
  obtain ⟨s, hs, hk1⟩ := hk
  rw [List.mem_filter] at hs
  rw [List.mem_toFinset, ← hk1]
  exact List.mem_map_of_mem (fun s => s.1) hs.1

/-- The seed set stays within the keys of the skeleton list. -/
theorem orphanInit_bound (sk : List Sk) :
    orphanInit sk ⊆ (skKeys sk).toFinset := by
  intro k hk
  simp only [orphanInit, List.mem_toFinset, List.mem_map] at hk
  obtain ⟨s, hs, hk1⟩ := hk
  rw [List.mem_filter] at hs
  rw [List.mem_toFinset, ← hk1]
  exact List.mem_map_of_mem (fun s => s.1) hs.1

/-- The orphan cascade set is a fixpoint of the cascade step: the fuel the
source gives the stack loop always suffices. -/
theorem orphanKeys_fixed (sk : List Sk) :
    orphanStep sk (orphanKeys sk) = orphanKeys sk := by
  rw [orphanKeys]
  apply iterToFix_fix (orphanStep sk) ((skKeys sk).toFinset)
    (orphanStep_grow sk) (orphanStep_bound sk) _ _ (orphanInit_bound sk)
  have := Finset.card_le_card (orphanInit_bound sk)
  omega

/-- The seed set is contained in the cascade set. -/
theorem orphanInit_subset (sk : List Sk) : orphanInit sk ⊆ orphanKeys sk :=
  iterToFix_grow (orphanStep sk) (orphanStep_grow sk) _ _

/-- After the orphan filter, every declared parent key is the key of a
surviving node: the cascade removes dangling references transitively. -/
theorem orphan_filter_closed (ns1 : List Node) (n : Node)
    (hn : n ∈ ns1.filter (fun n => !decide (n.key ∈ orphanKeys (ns1.map skel))))
    (p : Int) (hp : getParent n = some p) :
    ∃ m ∈ ns1.filter
        (fun n => !decide (n.key ∈ orphanKeys (ns1.map skel))),
      m.key = p := by
  rw [List.mem_filter] at hn
  obtain ⟨hn1, hn2⟩ := hn
  by_cases hex : ∃ m ∈ ns1, m.key = p
  · obtain ⟨m, hm, hmk⟩ := hex
    by_cases hms : m.key ∈ orphanKeys (ns1.map skel)
    · exfalso
      have hstep : n.key ∈ orphanStep (ns1.map skel)
          (orphanKeys (ns1.map skel)) := by
        rw [orphanStep]
        apply Finset.mem_union_right
        simp only [List.mem_toFinset, List.mem_map]
        refine ⟨skel n, ?_, rfl⟩
        rw [List.mem_filter]
        refine ⟨List.mem_map_of_mem skel hn1, ?_⟩
        have hsp : (skel n).2.1 = some p := hp
        rw [hsp]
        rw [hmk] at hms
        simp [hms]
      rw [orphanKeys_fixed] at hstep
      simp [hstep] at hn2
    · exact ⟨m, List.mem_filter.mpr ⟨hm, by simp [hms]⟩, hmk⟩
  · exfalso
    have hinit : n.key ∈ orphanInit (ns1.map skel) := by
      rw [orphanInit]
      simp only [List.mem_toFinset, List.mem_map]
      refine ⟨skel n, ?_, rfl⟩
      rw [List.mem_filter]
      refine ⟨List.mem_map_of_mem skel hn1, ?_⟩
      have hsp : (skel n).2.1 = some p := hp
      rw [hsp]
      suffices hc : (skKeys (ns1.map skel)).contains p = false by
        show (!(skKeys (ns1.map skel)).contains p) = true
        rw [hc]
        rfl
      rw [← Bool.not_eq_true, List.contains_iff_exists_mem_beq]
      intro hcon
      obtain ⟨x, hx, hxb⟩ := hcon
      rw [beq_iff_eq] at hxb
      subst hxb
      simp only [skKeys, List.map_map, List.mem_map] at hx
      obtain ⟨m, hm, hmx⟩ := hx
      exact hex ⟨m, hm, hmx⟩
    have hks : n.key ∈ orphanKeys (ns1.map skel) :=
      orphanInit_subset (ns1.map skel) hinit
    simp [hks] at hn2

/-- The skeleton is preserved by the depth writer. -/
theorem skel_setDepth (dm : List (Int × Int)) (n : Node) :
    skel (setDepth dm n) = skel n := by
  unfold skel getParent
  rw [setDepth_parent, setDepth_key]
  unfold setDepth
  split <;> rfl

/-- The skeleton is preserved by cleanup. -/
theorem skel_cleanup (n : Node) : skel (cleanupNode n) = skel n := by
  unfold skel getParent cleanupNode
  dsimp only
  split
  · rename_i hp
    rw [hp]
    rfl
  · rfl

/-- A kept path of the `dfs_keep` traversal: from node `k` with text `t` at
depth `d`, following child edges, with the keep condition holding at every
node left behind. -/
inductive KPath (conf : Conf) (sk : List Sk) :
    Int → String → Nat → Int → String → Nat → Prop
  | refl (k : Int) (t : String) (d : Nat) : KPath conf sk k t d k t d
  | cons {k : Int} {t : String} {d : Nat} {k1 : Int} {t1 : String} {p : Int}
      {t' : String} {d' : Nat} :
      keepCond conf t d = true → (k1, t1) ∈ childKT sk k →
      KPath conf sk k1 t1 (d + 1) p t' d' → KPath conf sk k t d p t' d'

/-- Depths never decrease along a kept path. -/
theorem KPath_le (conf : Conf) (sk : List Sk) {k : Int} {t : String} {d : Nat}
    {p : Int} {t' : String} {d' : Nat}
    (h : KPath conf sk k t d p t' d') : d ≤ d' := by
  induction h with
  | refl _ _ _ => exact Nat.le_refl _
  | cons _ _ _ ih => omega

/-- Generic soundness of a membership fold. -/
theorem foldl_mem_sound {β : Type} (f : Finset Int → β → Finset Int)
    (Q : β → Int → Prop)
    (hf : ∀ a b p, p ∈ f a b → p ∈ a ∨ Q b p) :
    ∀ (l : List β) (a : Finset Int) (p : Int),
      p ∈ l.foldl f a → p ∈ a ∨ ∃ b ∈ l, Q b p
  | [], _, _, h => Or.inl h
  | b :: l, a, p, h => by
    rcases foldl_mem_sound f Q hf l (f a b) p h with h1 | ⟨b2, hb2, hq⟩
    · rcases hf a b p h1 with h2 | hq
      · exact Or.inl h2
      · exact Or.inr ⟨b, List.mem_cons_self b l, hq⟩
    · exact Or.inr ⟨b2, List.mem_cons_of_mem b hb2, hq⟩

/-- Generic completeness of a membership fold over monotone steps. -/
theorem foldl_mem_complete {β : Type} (f : Finset Int → β → Finset Int)
    (hmono : ∀ (a : Finset Int) (b : β), a ⊆ f a b) (x : β) (p : Int)
    (hstep : ∀ a, p ∈ f a x) :
    ∀ (l : List β) (a : Finset Int), x ∈ l → p ∈ l.foldl f a
  | [], _, hx => absurd hx (List.not_mem_nil x)
  | b :: l, a, hx => by
    rcases List.mem_cons.mp hx with h | h
    · subst h
      exact Finset.mem_of_subset (foldl_keep_mono f hmono l (f a x)) (hstep a)
    · exact foldl_mem_complete f hmono x p hstep l (f a b) h

/-- Soundness of `dfs_keep`: every collected key beyond the accumulator is
the endpoint of a kept path whose endpoint also passes the keep
condition. -/
theorem keepGo_sound (conf : Conf) (sk : List Sk) :
    ∀ (fuel : Nat) (k : Int) (t : String) (d : Nat) (acc : Finset Int)
      (p : Int), p ∈ keepGo conf sk fuel k t d acc →
      p ∈ acc ∨ ∃ t' d', KPath conf sk k t d p t' d' ∧
        keepCond conf t' d' = true := by
  intro fuel
  induction fuel with
  | zero => intro k t d acc p h; exact Or.inl h
  | succ fuel ih =>
    intro k t d acc p h
    rw [keepGo] at h
    split at h
    · rename_i hcond
      have hmain := foldl_mem_sound
        (fun acc2 ct => keepGo conf sk fuel ct.1 ct.2 (d + 1) acc2)
        (fun ct p => ∃ t' d', KPath conf sk ct.1 ct.2 (d + 1) p t' d' ∧
          keepCond conf t' d' = true)
        (fun a b p hp => ih b.1 b.2 (d + 1) a p hp)
        (childKT sk k) (insert k acc) p h
      rcases hmain with h1 | ⟨ct, hct, t', d', hpath, hcond2⟩
      · rcases Finset.mem_insert.mp h1 with h2 | h2
        · subst h2
          exact Or.inr ⟨t, d, KPath.refl p t d, hcond⟩
        · exact Or.inl h2
      · refine Or.inr ⟨t', d', KPath.cons hcond ?_ hpath, hcond2⟩
        rw [Prod.mk.eta]
        exact hct
    · exact Or.inl h

/-- Completeness of `dfs_keep`: a kept path of length within the fuel whose
endpoint passes the keep condition puts the endpoint into the result. -/
theorem keepGo_complete (conf : Conf) (sk : List Sk) {k : Int} {t : String}
    {d : Nat} {p : Int} {t' : String} {d' : Nat}
    (hpath : KPath conf sk k t d p t' d')
    (hcond : keepCond conf t' d' = true) :
    ∀ (fuel : Nat), d' - d + 1 ≤ fuel → ∀ acc,
      p ∈ keepGo conf sk fuel k t d acc := by
  induction hpath with
  | refl k0 t0 d0 =>
    intro fuel hfuel acc
    cases fuel with
    | zero => omega
    | succ fuel =>
      rw [keepGo, if_pos hcond]
      exact Finset.mem_of_subset
        (foldl_keep_mono _
          (fun (a : Finset Int) (ct : Int × String) =>
            keepGo_mono conf sk fuel ct.1 ct.2 (d0 + 1) a) _ _)
        (Finset.mem_insert_self k0 acc)
  | cons hc he hrest ih =>
    rename_i k0 t0 d0 k1 t1 p0 t2 d2
    intro fuel hfuel acc
    cases fuel with
    | zero => omega
    | succ fuel =>
      have hd : d0 + 1 ≤ d2 := KPath_le conf sk hrest
      rw [keepGo, if_pos hc]
      exact foldl_mem_complete _
        (fun (a : Finset Int) (ct : Int × String) =>
          keepGo_mono conf sk fuel ct.1 ct.2 (d0 + 1) a)
        (k1, t1) p0 (fun a => ih hcond fuel (by omega) a)
        (childKT sk k0) (insert k0 acc) he

/-- A child edge comes from a skeleton entry with the matching parent
reference. -/
theorem childKT_entry (sk : List Sk) {q p : Int} {t' : String}
    (h : (p, t') ∈ childKT sk q) :
    ∃ s ∈ sk, s.1 = p ∧ s.2.2 = t' ∧ s.2.1 = some q := by
  simp only [childKT, List.mem_map] at h
  obtain ⟨s, hs, hst⟩ := h
  rw [List.mem_filter] at hs
  obtain ⟨h1, h2⟩ := Prod.mk.injEq .. ▸ hst
  exact ⟨s, hs.1, h1, h2, beq_iff_eq.mp hs.2⟩

/-- A skeleton entry with a parent reference yields a child edge. -/
theorem childKT_intro (sk : List Sk) {q : Int} {s : Sk} (hs : s ∈ sk)
    (hp : s.2.1 = some q) : (s.1, s.2.2) ∈ childKT sk q := by
  simp only [childKT, List.mem_map]
  refine ⟨s, ?_, rfl⟩
  rw [List.mem_filter]
  exact ⟨hs, by rw [hp]; exact beq_self_eq_true _⟩

/-- Last-step decomposition of a kept path. -/
theorem KPath_last (conf : Conf) (sk : List Sk) :
    ∀ {k : Int} {t : String} {d : Nat} {p : Int} {t' : String} {d' : Nat},
      KPath conf sk k t d p t' d' →
      (p = k ∧ t' = t ∧ d' = d) ∨
      ∃ q tq dq, KPath conf sk k t d q tq dq ∧
        keepCond conf tq dq = true ∧ (p, t') ∈ childKT sk q ∧ d' = dq + 1 := by
  intro k t d p t' d' h
  induction h with
  | refl _ _ _ => exact Or.inl ⟨rfl, rfl, rfl⟩
  | cons hc he hrest ih =>
    rename_i k0 t0 d0 k1 t1 p0 t2 d2
    rcases ih with ⟨hp, ht, hd⟩ | ⟨q, tq, dq, hq, hcq, heq, hdq⟩
    · subst hp
      subst ht
      subst hd
      exact Or.inr ⟨k0, t0, d0, KPath.refl k0 t0 d0, hc, he, rfl⟩
    · exact Or.inr ⟨q, tq, dq, KPath.cons hc he hq, hcq, heq, hdq⟩

/-- The endpoint of a kept path is the start or carries a skeleton entry. -/
theorem KPath_endpoint (conf : Conf) (sk : List Sk) {k : Int} {t : String}
    {d : Nat} {p : Int} {t' : String} {d' : Nat}
    (h : KPath conf sk k t d p t' d') :
    (p = k ∧ t' = t) ∨ ∃ s ∈ sk, s.1 = p ∧ s.2.2 = t' := by
  rcases KPath_last conf sk h with ⟨hp, ht, _⟩ | ⟨q, tq, dq, _, _, hedge, _⟩
  · exact Or.inl ⟨hp, ht⟩
  · obtain ⟨s, hs, h1, h2, _⟩ := childKT_entry sk hedge
    exact Or.inr ⟨s, hs, h1, h2⟩

/-- On a skeleton with unique keys whose root entry has no parent, the key
of a kept-path endpoint determines the depth and the text: parent
references pin down the whole path. -/
theorem KPath_unique (conf : Conf) (sk : List Sk) (rk : Int) (rt : String)
    (hnd : (skKeys sk).Nodup)
    (hroot : ∀ s ∈ sk, s.1 = rk → s.2.1 = none) :
    ∀ (d1 : Nat) (p : Int) (t1 : String),
      KPath conf sk rk rt 0 p t1 d1 →
      ∀ (t2 : String) (d2 : Nat), KPath conf sk rk rt 0 p t2 d2 →
        d1 = d2 ∧ t1 = t2 := by
  intro d1
  induction d1 using Nat.strong_induction_on with
  | _ d1 ih =>
    intro p t1 h1 t2 d2 h2
    rcases KPath_last conf sk h1 with ⟨hp1, ht1, hd1⟩ |
      ⟨q1, tq1, dq1, hpq1, hc1, he1, hd1⟩
    · subst hp1
      subst ht1
      subst hd1
      rcases KPath_last conf sk h2 with ⟨hp2, ht2, hd2⟩ |
        ⟨q2, tq2, dq2, hpq2, hc2, he2, hd2⟩
      · exact ⟨hd2.symm, ht2.symm⟩
      · exfalso
        obtain ⟨s, hs, hsk, _, hsp⟩ := childKT_entry sk he2
        rw [hroot s hs hsk] at hsp
        exact Option.noConfusion hsp
    · rcases KPath_last conf sk h2 with ⟨hp2, ht2, hd2⟩ |
        ⟨q2, tq2, dq2, hpq2, hc2, he2, hd2⟩
      · exfalso
        subst hp2
        obtain ⟨s, hs, hsk, _, hsp⟩ := childKT_entry sk he1
        rw [hroot s hs hsk] at hsp
        exact Option.noConfusion hsp
      · obtain ⟨s1, hs1, hk1, ht1e, hp1e⟩ := childKT_entry sk he1
        obtain ⟨s2, hs2, hk2, ht2e, hp2e⟩ := childKT_entry sk he2
        have hseq : s1 = s2 :=
          List.inj_on_of_nodup_map hnd hs1 hs2 (by rw [hk1, hk2])
        have hq : q1 = q2 := by
          rw [hseq] at hp1e
          rw [hp1e] at hp2e
          exact Option.some_injective _ hp2e
        subst hq
        have hdq := ih dq1 (by omega) q1 tq1 hpq1 tq2 dq2 hpq2
        constructor
        · omega
        · rw [← ht1e, ← ht2e, hseq]

/-- Every depth up to a kept-path endpoint is realised by a prefix of the
path. -/
theorem KPath_prefix (conf : Conf) (sk : List Sk) (rk : Int) (rt : String) :
    ∀ (d' : Nat) (p : Int) (t' : String), KPath conf sk rk rt 0 p t' d' →
      ∀ i, i ≤ d' → ∃ q tq, KPath conf sk rk rt 0 q tq i := by
  intro d'
  induction d' using Nat.strong_induction_on with
  | _ d' ih =>
    intro p t' h i hi
    by_cases hieq : i = d'
    · subst hieq
      exact ⟨p, t', h⟩
    · rcases KPath_last conf sk h with ⟨_, _, hd⟩ | ⟨q, tq, dq, hq, _, _, hd⟩
      · omega
      · subst hd
        exact ih dq (by omega) q tq hq i (by omega)

/-- On a skeleton with unique keys, a rooted kept path is no longer than
the node count: the keys along it are pairwise distinct. -/
theorem KPath_len (conf : Conf) (sk : List Sk) (rk : Int) (rt : String)
    (hnd : (skKeys sk).Nodup)
    (hroot : ∀ s ∈ sk, s.1 = rk → s.2.1 = none)
    (hrk : rk ∈ skKeys sk)
    {p : Int} {t' : String} {d' : Nat}
    (h : KPath conf sk rk rt 0 p t' d') : d' ≤ sk.length := by
  have hex : ∀ i : Fin (d' + 1), ∃ q tq, KPath conf sk rk rt 0 q tq i :=
    fun i => KPath_prefix conf sk rk rt d' p t' h i
      (Nat.lt_succ_iff.mp i.isLt)
  choose f g hf using hex
  have hinj : Function.Injective f := by
    intro i j hij
    have huni := KPath_unique conf sk rk rt hnd hroot i (f i) (g i) (hf i)
      (g j) j (hij ▸ hf j)
    exact Fin.ext huni.1
  have hmem : ∀ i : Fin (d' + 1), f i ∈ (skKeys sk).toFinset := by
    intro i
    rcases KPath_endpoint conf sk (hf i) with ⟨hp, _⟩ | ⟨s, hs, hk, _⟩
    · rw [hp, List.mem_toFinset]
      exact hrk
    · rw [List.mem_toFinset, ← hk]
      exact List.mem_map_of_mem (fun s => s.1) hs
  have hcard := Fintype.card_le_of_injective
    (fun i => (⟨f i, hmem i⟩ : {x // x ∈ (skKeys sk).toFinset}))
    (fun i j hij => hinj (congrArg Subtype.val hij))
  rw [Fintype.card_fin] at hcard
  have h2 : Fintype.card {x // x ∈ (skKeys sk).toFinset} =
      (skKeys sk).toFinset.card := Fintype.card_coe _
  have h3 : (skKeys sk).toFinset.card ≤ (skKeys sk).length :=
    (skKeys sk).toFinset_card_le
  have h4 : (skKeys sk).length = sk.length := List.length_map sk _
  omega

/-- Soundness of the keep set. -/
theorem dfsKeepSet_sound (conf : Conf) (sk : List Sk) (rk : Int) (rt : String)
    {p : Int} (h : p ∈ dfsKeepSet conf sk rk rt) :
    ∃ t' d', KPath conf sk rk rt 0 p t' d' ∧ keepCond conf t' d' = true := by
  rcases keepGo_sound conf sk (sk.length + 1) rk rt 0 ∅ p h with h1 | h2
  · exact absurd h1 (Finset.not_mem_empty p)
  · exact h2

/-- Completeness of the keep set: the source's fuel suffices on skeletons
with unique keys and a parentless root entry. -/
theorem dfsKeepSet_complete (conf : Conf) (sk : List Sk) (rk : Int)
    (rt : String) (hnd : (skKeys sk).Nodup)
    (hroot : ∀ s ∈ sk, s.1 = rk → s.2.1 = none) (hrk : rk ∈ skKeys sk)
    {p : Int} {t' : String} {d' : Nat}
    (hpath : KPath conf sk rk rt 0 p t' d')
    (hcond : keepCond conf t' d' = true) :
    p ∈ dfsKeepSet conf sk rk rt := by
  rw [dfsKeepSet]
  apply keepGo_complete conf sk hpath hcond
  have := KPath_len conf sk rk rt hnd hroot hrk hpath
  omega

/-- Child keys are skeleton keys. -/
theorem childKeys_mem (sk : List Sk) {k ck : Int}
    (h : ck ∈ childKeys sk k) : ck ∈ skKeys sk := by
  simp only [childKeys, List.mem_map] at h
  obtain ⟨s, hs, hk⟩ := h
  rw [List.mem_filter] at hs
  rw [← hk]
  exact List.mem_map_of_mem (fun s => s.1) hs.1

/-- Specification of the `assign_depth` DFS: with enough fuel (which the
cardinality accounting guarantees), the visited set grows exactly by the
keys appended to the output, the traversed node itself is appended, and the
children of every appended node end up visited. -/
theorem depthGo_spec (sk : List Sk) (U : Finset Int)
    (hU : ∀ x ∈ skKeys sk, x ∈ U) :
    ∀ (fuel : Nat) (k : Int) (d : Int) (st : Finset Int × List (Int × Int)),
      st.1 ⊆ U → U.card - st.1.card + 1 ≤ fuel → k ∈ st.1 →
      ∃ new : List (Int × Int),
        (depthGo sk fuel k d st).2 = st.2 ++ new ∧
        (depthGo sk fuel k d st).1 = st.1 ∪ (new.map Prod.fst).toFinset ∧
        (depthGo sk fuel k d st).1 ⊆ U ∧
        (k, d) ∈ new ∧
        (∀ x ∈ new, ∀ ck ∈ childKeys sk x.1,
          ck ∈ (depthGo sk fuel k d st).1) := by
  intro fuel
  induction fuel with
  | zero =>
    intro k d st hsub hfuel hk
    omega
  | succ fuel ihd =>
    intro k d st hsub hfuel hk
    have fold : ∀ (cks : List Int), (∀ ck ∈ cks, ck ∈ skKeys sk) →
        ∀ (acc : Finset Int × List (Int × Int)), acc.1 ⊆ U →
          U.card - acc.1.card + 1 ≤ fuel + 1 →
          ∃ new : List (Int × Int),
            (cks.foldl (fun st2 ck => if ck ∈ st2.1 then st2
              else depthGo sk fuel ck (d + 1) (insert ck st2.1, st2.2))
                acc).2 = acc.2 ++ new ∧
            (cks.foldl (fun st2 ck => if ck ∈ st2.1 then st2
              else depthGo sk fuel ck (d + 1) (insert ck st2.1, st2.2))
                acc).1 = acc.1 ∪ (new.map Prod.fst).toFinset ∧
            (cks.foldl (fun st2 ck => if ck ∈ st2.1 then st2
              else depthGo sk fuel ck (d + 1) (insert ck st2.1, st2.2))
                acc).1 ⊆ U ∧
            (∀ x ∈ new, ∀ ck ∈ childKeys sk x.1,
              ck ∈ (cks.foldl (fun st2 ck => if ck ∈ st2.1 then st2
                else depthGo sk fuel ck (d + 1) (insert ck st2.1, st2.2))
                  acc).1) ∧
            (∀ ck ∈ cks,
              ck ∈ (cks.foldl (fun st2 ck => if ck ∈ st2.1 then st2
                else depthGo sk fuel ck (d + 1) (insert ck st2.1, st2.2))
                  acc).1) := by
      intro cks
      induction cks with
      | nil =>
        intro hcks acc hacc hafuel
        exact ⟨[], by simp, by simp, hacc, by simp, by simp⟩
      | cons ck cks ihl =>
        intro hcks acc hacc hafuel
        simp only [List.foldl_cons]
        by_cases hckin : ck ∈ acc.1
        · rw [if_pos hckin]
          obtain ⟨new, h1, h2, h3, h4, h5⟩ :=
            ihl (fun x hx => hcks x (List.mem_cons_of_mem ck hx)) acc hacc
              hafuel
          refine ⟨new, h1, h2, h3, h4, ?_⟩
          intro x hx
          rcases List.mem_cons.mp hx with hx | hx
          · subst hx
            rw [h2]
            exact Finset.mem_union_left _ hckin
          · exact h5 x hx
        · rw [if_neg hckin]
          have hckU : ck ∈ U := hU ck (hcks ck (List.mem_cons_self ck cks))
          have hccard : (insert ck acc.1).card = acc.1.card + 1 :=
            Finset.card_insert_of_not_mem hckin
          have haccle : acc.1.card ≤ U.card :=
            Finset.card_le_card hacc
          have hins_le : (insert ck acc.1).card ≤ U.card :=
            Finset.card_le_card (Finset.insert_subset hckU hacc)
          obtain ⟨new1, g1, g2, g3, g4, g5⟩ := ihd ck (d + 1)
            (insert ck acc.1, acc.2)
            (Finset.insert_subset hckU hacc)
            (by rw [hccard]; omega)
            (Finset.mem_insert_self ck acc.1)
          have hres_ge : acc.1.card ≤
              (depthGo sk fuel ck (d + 1) (insert ck acc.1, acc.2)).1.card :=
            Finset.card_le_card (by
              rw [g2]
              exact Finset.Subset.trans (Finset.subset_insert ck acc.1)
                Finset.subset_union_left)
          obtain ⟨new2, f1, f2, f3, f4, f5⟩ :=
            ihl (fun x hx => hcks x (List.mem_cons_of_mem ck hx))
              (depthGo sk fuel ck (d + 1) (insert ck acc.1, acc.2)) g3
              (by
                have := Finset.card_le_card g3
                omega)
          refine ⟨new1 ++ new2, ?_, ?_, f3, ?_, ?_⟩
          · rw [f1, g1, List.append_assoc]
          · rw [f2, g2, List.map_append, List.toFinset_append]
            rw [Finset.insert_union]
            rw [Finset.insert_eq_self.mpr
              (Finset.mem_union_right _ (List.mem_toFinset.mpr
                (List.mem_map_of_mem Prod.fst g4)))]
            rw [Finset.union_assoc]
          · intro x hx
            rcases List.mem_append.mp hx with hx | hx
            · intro ck2 hck2
              have hin := g5 x hx ck2 hck2
              rw [f2]
              exact Finset.mem_union_left _ hin
            · exact f4 x hx
          · intro y hy
            rcases List.mem_cons.mp hy with hy | hy
            · subst hy
              rw [f2, g2]
              apply Finset.mem_union_left
              exact Finset.mem_union_left _ (Finset.mem_insert_self y acc.1)
            · exact f5 y hy
    rw [depthGo]
    obtain ⟨new, h1, h2, h3, h4, h5⟩ := fold (childKeys sk k)
      (fun x hx => childKeys_mem sk hx) (st.1, st.2 ++ [(k, d)]) hsub hfuel
    refine ⟨(k, d) :: new, ?_, ?_, h3, List.mem_cons_self _ _, ?_⟩
    · rw [h1]
      simp
    · rw [h2]
      simp only [List.map_cons, List.toFinset_cons]
      rw [Finset.union_insert]
      rw [Finset.insert_eq_self.mpr (Finset.mem_union_left _ hk)]
    · intro x hx
      rcases List.mem_cons.mp hx with hx | hx
      · subst hx
        exact h5
      · exact h4 x hx

/-- Plain child-edge reachability from the root key. -/
inductive Reach (sk : List Sk) (rk : Int) : Int → Prop
  | root : Reach sk rk rk
  | step {k ck : Int} : Reach sk rk k → ck ∈ childKeys sk k → Reach sk rk ck

/-- Every key reachable from the root receives a depth entry: the DFS fuel
the source passes always suffices. -/
theorem depthMap_covers (sk : List Sk) (rk : Int) {p : Int}
    (h : Reach sk rk p) : p ∈ (depthMap sk rk).map Prod.fst := by
  have hcard : (insert rk (skKeys sk).toFinset).card - ({rk} : Finset Int).card
      + 1 ≤ sk.length + 1 := by
    have h1 : (insert rk (skKeys sk).toFinset).card ≤
        (skKeys sk).toFinset.card + 1 := Finset.card_insert_le _ _
    have h2 : (skKeys sk).toFinset.card ≤ (skKeys sk).length :=
      (skKeys sk).toFinset_card_le
    have h3 : (skKeys sk).length = sk.length := List.length_map sk _
    have h4 : ({rk} : Finset Int).card = 1 := Finset.card_singleton rk
    omega
  obtain ⟨new, h1, h2, _, h4, h5⟩ := depthGo_spec sk
    (insert rk (skKeys sk).toFinset)
    (fun x hx => Finset.mem_insert_of_mem (List.mem_toFinset.mpr hx))
    (sk.length + 1) rk 0 ({rk}, [])
    (Finset.singleton_subset_iff.mpr (Finset.mem_insert_self rk _))
    hcard (Finset.mem_singleton_self rk)
  have hVmem : ∀ q, q ∈ (depthGo sk (sk.length + 1) rk 0 ({rk}, [])).1 →
      ∃ e ∈ new, e.1 = q := by
    intro q hq
    rw [h2] at hq
    rcases Finset.mem_union.mp hq with hq | hq
    · rw [Finset.mem_singleton] at hq
      subst hq
      exact ⟨(q, 0), h4, rfl⟩
    · rw [List.mem_toFinset] at hq
      obtain ⟨e, he, hek⟩ := List.mem_map.mp hq
      exact ⟨e, he, hek⟩
  have hreach : ∀ q, Reach sk rk q →
      q ∈ (depthGo sk (sk.length + 1) rk 0 ({rk}, [])).1 := by
    intro q hq
    induction hq with
    | root =>
      rw [h2]
      exact Finset.mem_union_left _ (Finset.mem_singleton_self rk)
    | step hr hc ih =>
      obtain ⟨e, he, hek⟩ := hVmem _ ih
      exact h5 e he _ (hek ▸ hc)
  obtain ⟨e, he, hek⟩ := hVmem p (hreach p h)
  rw [depthMap, h1]
  simp only [List.nil_append]
  rw [← hek]
  exact List.mem_map_of_mem Prod.fst he

/-- A key among the first components of an association list has a lookup
value. -/
theorem lookup_of_mem_fst : ∀ (l : List (Int × Int)) (p : Int),
    p ∈ l.map Prod.fst → ∃ v, List.lookup p l = some v
  | [], _, h => absurd h (List.not_mem_nil _)
  | (a, b) :: l, p, h => by
    by_cases hpa : p = a
    · subst hpa
      exact ⟨b, by simp [List.lookup]⟩
    · rcases List.mem_cons.mp h with h1 | h1
      · exact absurd h1 hpa
      · obtain ⟨v, hv⟩ := lookup_of_mem_fst l p h1
        refine ⟨v, ?_⟩
        rw [List.lookup]
        rw [show (p == a) = false from beq_eq_false_iff_ne.mpr hpa]
        exact hv

/-- The last-wins root search returns a parentless member of the list. -/
theorem findRootLast_spec (ns : List Node) (r : Node)
    (h : findRootLast ns = some r) : r ∈ ns ∧ getParent r = none := by
  suffices haux : ∀ (l : List Node) (acc : Option Node),
      l.foldl (fun acc n => if getParent n = none then some n else acc) acc =
        some r → (r ∈ l ∧ getParent r = none) ∨ acc = some r by
    rcases haux ns none h with hgood | hbad
    · exact hgood
    · exact Option.noConfusion hbad
  intro l
  induction l with
  | nil => intro acc hacc; exact Or.inr hacc
  | cons c rest ih =>
    intro acc hacc
    rw [List.foldl_cons] at hacc
    rcases ih _ hacc with hgood | heq
    · exact Or.inl ⟨List.mem_cons_of_mem c hgood.1, hgood.2⟩
    · by_cases hc : getParent c = none
      · rw [if_pos hc] at heq
        obtain hcr := Option.some_injective _ heq
        subst hcr
        exact Or.inl ⟨List.mem_cons_self c rest, hc⟩
      · rw [if_neg hc] at heq
        exact Or.inr heq

/-- The keys of a mapped skeleton list are the node keys. -/
theorem skKeys_map_skel (l : List Node) :
    skKeys (l.map skel) = l.map Node.key := by
  rw [skKeys, List.map_map]
  rfl

/-- Writing depths does not change the skeleton list. -/
theorem map_skel_setDepth (dm : List (Int × Int)) (l : List Node) :
    (l.map (setDepth dm)).map skel = l.map skel := by
  rw [List.map_map]
  exact List.map_congr_left (fun n _ => skel_setDepth dm n)

/-- A kept path extends by one kept edge at its end. -/
theorem KPath_snoc (conf : Conf) (sk : List Sk) {k0 : Int} {t0 : String}
    {d0 : Nat} {k : Int} {t : String} {d : Nat}
    (h : KPath conf sk k0 t0 d0 k t d) (hc : keepCond conf t d = true)
    {k1 : Int} {t1 : String} (he : (k1, t1) ∈ childKT sk k) :
    KPath conf sk k0 t0 d0 k1 t1 (d + 1) := by
  induction h with
  | refl a b c => exact KPath.cons hc he (KPath.refl k1 t1 (c + 1))
  | cons hc2 he2 hrest ih => exact KPath.cons hc2 he2 (ih hc he)

/-- The start of a kept path passes the keep condition whenever the
endpoint does. -/
theorem KPath_head_cond (conf : Conf) (sk : List Sk) {k : Int} {t : String}
    {d : Nat} {p : Int} {t' : String} {d' : Nat}
    (h : KPath conf sk k t d p t' d') (hc : keepCond conf t' d' = true) :
    keepCond conf t d = true := by
  cases h with
  | refl => exact hc
  | cons hc2 _ _ => exact hc2

/-- Child edges forget their texts. -/
theorem childKT_to_childKeys (sk : List Sk) {k p : Int} {t' : String}
    (h : (p, t') ∈ childKT sk k) : p ∈ childKeys sk k := by
  obtain ⟨s, hs, h1, _, h3⟩ := childKT_entry sk h
  rw [← h1]
  simp only [childKeys, List.mem_map]
  refine ⟨s, ?_, rfl⟩
  rw [List.mem_filter]
  exact ⟨hs, by rw [h3]; exact beq_self_eq_true _⟩

/-- A kept path from a reachable start keeps its endpoint reachable. -/
theorem KPath_Reach_aux (conf : Conf) (sk : List Sk) (rk : Int) {k : Int}
    {t : String} {d : Nat} {p : Int} {t' : String} {d' : Nat}
    (h : KPath conf sk k t d p t' d') : Reach sk rk k → Reach sk rk p := by
  induction h with
  | refl _ _ _ => exact fun hr => hr
  | cons _ he _ ih =>
    exact fun hr => ih (Reach.step hr (childKT_to_childKeys sk he))

/-- A kept path yields plain reachability. -/
theorem KPath_to_Reach (conf : Conf) (sk : List Sk) (rk : Int) (rt : String)
    {p : Int} {t' : String} {d' : Nat}
    (h : KPath conf sk rk rt 0 p t' d') : Reach sk rk p :=
  KPath_Reach_aux conf sk rk h Reach.root

/-- On lists without explicit null parents the two parentless tests
agree. -/
theorem filter_parentless_eq (l : List Node)
    (h : ∀ n ∈ l, n.parent ≠ some none) :
    l.filter (fun n => n.parent == (none : Option (Option Int))) =
      l.filter (fun n => getParent n == none) := by
  apply List.filter_congr
  intro n hn
  rcases hp : n.parent with _ | q
  · simp [getParent, hp]
  · rcases q with _ | p
    · exact absurd hp (h n hn)
    · simp [getParent, hp]

/-- In a duplicate-free list, a filter whose members all equal a present
element is that singleton. -/
theorem filter_singleton_of_all_eq (l : List Node) (r : Node)
    (hnd : l.Nodup) (p : Node → Bool)
    (hall : ∀ x ∈ l.filter p, x = r) (hr : r ∈ l.filter p) :
    l.filter p = [r] := by
  have hsub : List.Sublist (l.filter p) l := List.filter_sublist l
  have hfnd : (l.filter p).Nodup := List.Nodup.sublist hsub hnd
  cases hfp : l.filter p with
  | nil =>
    rw [hfp] at hr
    exact absurd hr (List.not_mem_nil r)
  | cons x rest =>
    have hx : x = r := hall x (by rw [hfp]; exact List.mem_cons_self x rest)
    subst hx
    rw [hfp] at hfnd
    cases rest with
    | nil => rfl
    | cons y rest2 =>
      have hy : y = x := hall y (by
        rw [hfp]
        exact List.mem_cons_of_mem x (List.mem_cons_self y rest2))
      rw [List.nodup_cons] at hfnd
      exact absurd (hy ▸ List.mem_cons_self y rest2) hfnd.1

/-- Keys of nodes sharing a duplicate-free list are injective. -/
theorem key_inj (l : List Node) (hnd : (l.map Node.key).Nodup) {m n : Node}
    (hm : m ∈ l) (hn : n ∈ l) (h : m.key = n.key) : m = n :=
  List.inj_on_of_nodup_map hnd hm hn h

/-- Unfolding of the keep filter. -/
theorem keepFilter_eq (K : Finset Int) (n : Node) :
    keepFilter K n = true ↔
      n.key ∈ K ∧
        (getParent n = none ∨ ∃ q, getParent n = some q ∧ q ∈ K) := by
  unfold keepFilter
  rcases hp : getParent n with _ | q
  · simp [hp]
  · simp [hp]

/-- Kept-path transfer between skeletons: when every kept edge survives
into the second skeleton, rooted kept paths survive. -/
theorem KPath_transfer (conf : Conf) (sk2 sk4 : List Sk) (rk : Int)
    (rt : String)
    (hedge : ∀ (a : Int) (ta : String) (da : Nat) (b : Int) (tb : String),
      KPath conf sk2 rk rt 0 a ta da → keepCond conf ta da = true →
      (b, tb) ∈ childKT sk2 a → keepCond conf tb (da + 1) = true →
      (b, tb) ∈ childKT sk4 a) :
    ∀ {k : Int} {t : String} {d : Nat} {p : Int} {t' : String} {d' : Nat},
      KPath conf sk2 k t d p t' d' → KPath conf sk2 rk rt 0 k t d →
      keepCond conf t' d' = true → KPath conf sk4 k t d p t' d' := by
  intro k t d p t' d' h
  induction h with
  | refl a b c => exact fun _ _ => KPath.refl a b c
  | cons hc he hrest ih =>
    intro hpre hfinal
    have hcb := KPath_head_cond conf sk2 hrest hfinal
    have hpre1 := KPath_snoc conf sk2 hpre hc he
    exact KPath.cons hc (hedge _ _ _ _ _ hpre hc he hcb)
      (ih hpre1 hfinal)

/-- Core facts about the keep-prune stage: every survivor's key is in the
keep set, survivors are parent-closed, the unique parentless survivor is
the root's image, every survivor is reachable from the root by a kept path
inside the surviving skeleton, and keys stay unique. -/
theorem keep_stage_core (conf : Conf) (ns2 : List Node) (r : Node)
    (dm2 : List (Int × Int)) (K : Finset Int) (ns4 : List Node)
    (hK : K = dfsKeepSet conf (ns2.map skel) r.key r.text)
    (hns4 : ns4 =
      if K.card ≠ (ns2.map (setDepth dm2)).length ∧ 0 ≤ conf.maxDepth
      then (ns2.map (setDepth dm2)).filter (keepFilter K)
      else ns2.map (setDepth dm2))
    (hr2 : r ∈ ns2) (hrp : getParent r = none)
    (hnd2 : (ns2.map Node.key).Nodup)
    (hcond : keepCond conf r.text 0 = true)
    (hmd : 0 ≤ conf.maxDepth)
    (hclosed2 : ∀ n ∈ ns2, ∀ p, getParent n = some p → ∃ m ∈ ns2, m.key = p) :
    (∀ m ∈ ns4, m.key ∈ K) ∧
    (∀ m ∈ ns4, ∀ p, getParent m = some p → ∃ m2 ∈ ns4, m2.key = p) ∧
    ns4.filter (fun n => getParent n == none) = [setDepth dm2 r] ∧
    (∀ m ∈ ns4, ∃ t' d',
      KPath conf (ns4.map skel) r.key r.text 0 m.key t' d' ∧
      keepCond conf t' d' = true) ∧
    (ns4.map Node.key).Nodup ∧ ns4.length ≤ ns2.length := by
  have hsknd : (skKeys (ns2.map skel)).Nodup := by
    rw [skKeys_map_skel]
    exact hnd2
  have hrootk : ∀ s ∈ ns2.map skel, s.1 = r.key → s.2.1 = none := by
    intro s hs h1
    obtain ⟨m, hm, hms⟩ := List.mem_map.mp hs
    have hmr : m = r := key_inj ns2 hnd2 hm hr2 (by rw [← hms] at h1; exact h1)
    rw [← hms, hmr]
    exact hrp
  have hrkmem : r.key ∈ skKeys (ns2.map skel) := by
    rw [skKeys_map_skel]
    exact List.mem_map_of_mem Node.key hr2
  have hKr : r.key ∈ K := by
    rw [hK]
    exact root_mem_dfsKeepSet conf _ r.key r.text hcond
  have hKnode : ∀ p ∈ K, p = r.key ∨
      ∃ m ∈ ns2, m.key = p ∧ ∃ q, getParent m = some q ∧ q ∈ K := by
    intro p hp
    rw [hK] at hp
    obtain ⟨t', d', hpath, hce⟩ := dfsKeepSet_sound conf _ _ _ hp
    rcases KPath_last conf _ hpath with ⟨hpk, _, _⟩ |
      ⟨q, tq, dq, hq, hcq, hedge, hd⟩
    · exact Or.inl hpk
    · obtain ⟨s, hs, h1, h2, h3⟩ := childKT_entry _ hedge
      obtain ⟨m, hm, hms⟩ := List.mem_map.mp hs
      refine Or.inr ⟨m, hm, by rw [← hms] at h1; exact h1, q, ?_, ?_⟩
      · show getParent m = some q
        rw [← hms] at h3
        exact h3
      · rw [hK]
        exact dfsKeepSet_complete conf _ _ _ hsknd hrootk hrkmem hq hcq
  have hnd3 : ((ns2.map (setDepth dm2)).map Node.key).Nodup := by
    rw [map_key_map (setDepth dm2) (setDepth_key dm2)]
    exact hnd2
  have hdisj : ns4 = (ns2.map (setDepth dm2)).filter (keepFilter K) ∨
      (ns4 = ns2.map (setDepth dm2) ∧
        K = ((ns2.map (setDepth dm2)).map Node.key).toFinset) := by
    rw [hns4]
    split
    · exact Or.inl rfl
    · rename_i hcneg
      refine Or.inr ⟨rfl, ?_⟩
      have hlen3 : K.card = (ns2.map (setDepth dm2)).length := by
        by_contra hne
        exact hcneg ⟨hne, hmd⟩
      have hKsub : K ⊆ ((ns2.map (setDepth dm2)).map Node.key).toFinset := by
        intro p hp
        rw [List.mem_toFinset, map_key_map (setDepth dm2) (setDepth_key dm2)]
        rcases hKnode p hp with hpr | ⟨m, hm, hmk, _⟩
        · subst hpr
          exact List.mem_map_of_mem Node.key hr2
        · rw [← hmk]
          exact List.mem_map_of_mem Node.key hm
      apply Finset.eq_of_subset_of_card_le hKsub
      rw [List.toFinset_card_of_nodup hnd3, List.length_map]
      omega
  have hC1 : ∀ m ∈ ns4, m.key ∈ K := by
    rcases hdisj with h4 | ⟨h4, hKeq⟩
    · intro m hm
      rw [h4, List.mem_filter] at hm
      exact ((keepFilter_eq K m).mp hm.2).1
    · intro m hm
      rw [h4] at hm
      rw [hKeq, List.mem_toFinset]
      exact List.mem_map_of_mem Node.key hm
  have hsub34 : ∀ x ∈ ns4, x ∈ ns2.map (setDepth dm2) := by
    rcases hdisj with h4 | ⟨h4, _⟩
    · intro x hx
      rw [h4] at hx
      exact List.mem_of_mem_filter hx
    · intro x hx
      rw [h4] at hx
      exact hx
  have hsurv : ∀ m ∈ ns2, m.key ∈ K →
      (getParent m = none ∨ ∃ q, getParent m = some q ∧ q ∈ K) →
      setDepth dm2 m ∈ ns4 := by
    rcases hdisj with h4 | ⟨h4, _⟩
    · intro m hm h1 h2
      rw [h4, List.mem_filter]
      refine ⟨List.mem_map_of_mem (setDepth dm2) hm, ?_⟩
      rw [keepFilter_eq, setDepth_key, setDepth_getParent]
      exact ⟨h1, h2⟩
    · intro m hm _ _
      rw [h4]
      exact List.mem_map_of_mem (setDepth dm2) hm
  have hparentK : ∀ m ∈ ns4, ∀ p, getParent m = some p → p ∈ K := by
    rcases hdisj with h4 | ⟨h4, hKeq⟩
    · intro m hm p hp
      rw [h4, List.mem_filter] at hm
      obtain ⟨_, h2⟩ := (keepFilter_eq K m).mp hm.2
      rcases h2 with hnone | ⟨q, hq, hqK⟩
      · rw [hp] at hnone
        exact Option.noConfusion hnone
      · rw [hp] at hq
        obtain hpq := Option.some_injective _ hq
        rw [hpq]
        exact hqK
    · intro m hm p hp
      rw [h4] at hm
      obtain ⟨m0, hm0, hm0e⟩ := List.mem_map.mp hm
      rw [← hm0e, setDepth_getParent] at hp
      obtain ⟨m2, hm2, hm2k⟩ := hclosed2 m0 hm0 p hp
      rw [hKeq, List.mem_toFinset,
        map_key_map (setDepth dm2) (setDepth_key dm2), ← hm2k]
      exact List.mem_map_of_mem Node.key hm2
  have hC2 : ∀ m ∈ ns4, ∀ p, getParent m = some p → ∃ m2 ∈ ns4, m2.key = p := by
    intro m hm p hp
    have hpK : p ∈ K := hparentK m hm p hp
    rcases hKnode p hpK with hpr | ⟨m1, hm1, hm1k, q, hq1, hqK⟩
    · subst hpr
      refine ⟨setDepth dm2 r, hsurv r hr2 hKr (Or.inl hrp), ?_⟩
      rw [setDepth_key]
    · refine ⟨setDepth dm2 m1,
        hsurv m1 hm1 (by rw [hm1k]; exact hpK) (Or.inr ⟨q, hq1, hqK⟩), ?_⟩
      rw [setDepth_key]
      exact hm1k
  have hnd4 : (ns4.map Node.key).Nodup := by
    rcases hdisj with h4 | ⟨h4, _⟩
    · rw [h4]
      exact List.Nodup.sublist
        (List.Sublist.map Node.key (List.filter_sublist _)) hnd3
    · rw [h4]
      exact hnd3
  have hall : ∀ x ∈ ns4.filter (fun n => getParent n == none),
      x = setDepth dm2 r := by
    intro x hx
    rw [List.mem_filter] at hx
    obtain ⟨hx4, hxp⟩ := hx
    obtain ⟨m0, hm0, hm0e⟩ := List.mem_map.mp (hsub34 x hx4)
    have hgp : getParent m0 = none := by
      rw [← hm0e, setDepth_getParent] at hxp
      exact beq_iff_eq.mp hxp
    have hkK : x.key ∈ K := hC1 x hx4
    rcases hKnode x.key hkK with hpr | ⟨m1, hm1, hm1k, q, hq1, _⟩
    · have hm0r : m0 = r := by
        apply key_inj ns2 hnd2 hm0 hr2
        rw [← hm0e, setDepth_key] at hpr
        exact hpr
      rw [← hm0e, hm0r]
    · exfalso
      have hm10 : m1 = m0 := by
        apply key_inj ns2 hnd2 hm1 hm0
        rw [hm1k, ← hm0e, setDepth_key]
      rw [hm10, hgp] at hq1
      exact Option.noConfusion hq1
  have hC3 : ns4.filter (fun n => getParent n == none) = [setDepth dm2 r] := by
    apply filter_singleton_of_all_eq ns4 (setDepth dm2 r)
      (List.Nodup.of_map Node.key hnd4) _ hall
    rw [List.mem_filter]
    refine ⟨hsurv r hr2 hKr (Or.inl hrp), ?_⟩
    rw [setDepth_getParent]
    rw [hrp]
    rfl
  have hedge : ∀ (a : Int) (ta : String) (da : Nat) (b : Int) (tb : String),
      KPath conf (ns2.map skel) r.key r.text 0 a ta da →
      keepCond conf ta da = true →
      (b, tb) ∈ childKT (ns2.map skel) a →
      keepCond conf tb (da + 1) = true →
      (b, tb) ∈ childKT (ns4.map skel) a := by
    intro a ta da b tb hpa hca he hcb
    have hpb := KPath_snoc conf (ns2.map skel) hpa hca he
    have hbK : b ∈ K := by
      rw [hK]
      exact dfsKeepSet_complete conf _ _ _ hsknd hrootk hrkmem hpb hcb
    have haK : a ∈ K := by
      rw [hK]
      exact dfsKeepSet_complete conf _ _ _ hsknd hrootk hrkmem hpa hca
    obtain ⟨s, hs, h1, h2, h3⟩ := childKT_entry _ he
    obtain ⟨m, hm, hms⟩ := List.mem_map.mp hs
    have hmem4 : setDepth dm2 m ∈ ns4 := by
      apply hsurv m hm
      · rw [show m.key = (skel m).1 from rfl, hms, h1]
        exact hbK
      · refine Or.inr ⟨a, ?_, haK⟩
        show getParent m = some a
        rw [show getParent m = (skel m).2.1 from rfl, hms]
        exact h3
    have hs4 : s ∈ ns4.map skel := by
      rw [← hms, ← skel_setDepth dm2 m]
      exact List.mem_map_of_mem skel hmem4
    have := childKT_intro (ns4.map skel) hs4 h3
    rw [h1, h2] at this
    exact this
  have hC5 : ∀ m ∈ ns4, ∃ t' d',
      KPath conf (ns4.map skel) r.key r.text 0 m.key t' d' ∧
      keepCond conf t' d' = true := by
    intro m hm
    have hkK : m.key ∈ K := hC1 m hm
    rw [hK] at hkK
    obtain ⟨t', d', hpath, hce⟩ := dfsKeepSet_sound conf _ _ _ hkK
    refine ⟨t', d', ?_, hce⟩
    exact KPath_transfer conf (ns2.map skel) (ns4.map skel) r.key r.text hedge
      hpath (KPath.refl r.key r.text 0) hce
  have hC6 : ns4.length ≤ ns2.length := by
    rcases hdisj with h4 | ⟨h4, _⟩
    · rw [h4]
      calc ((ns2.map (setDepth dm2)).filter (keepFilter K)).length
          ≤ (ns2.map (setDepth dm2)).length := List.length_filter_le _ _
        _ = ns2.length := List.length_map _ _
    · rw [h4]
      exact le_of_eq (List.length_map _ _)
  exact ⟨hC1, hC2, hC3, hC5, hnd4, hC6⟩

/-- Fields determined by the skeleton. -/
theorem key_of_skel {a b : Node} (h : skel a = skel b) : a.key = b.key :=
  congrArg (fun s => s.1) h

/-- The parent reference is determined by the skeleton. -/
theorem getParent_of_skel {a b : Node} (h : skel a = skel b) :
    getParent a = getParent b :=
  congrArg (fun s => s.2.1) h

/-- The text is determined by the skeleton. -/
theorem text_of_skel {a b : Node} (h : skel a = skel b) : a.text = b.text :=
  congrArg (fun s => s.2.2) h

/-- Cleanup keeps the brush. -/
theorem cleanup_brush (x : Node) : (cleanupNode x).brush = x.brush :=
  rfl

/-- Cleanup keeps the direction. -/
theorem cleanup_dir (x : Node) : (cleanupNode x).dir = x.dir :=
  rfl

/-- Cleanup keeps the location. -/
theorem cleanup_loc (x : Node) : (cleanupNode x).loc = x.loc :=
  rfl

/-- Cleanup clears the transient depth. -/
theorem cleanup_tdepth (x : Node) : (cleanupNode x).tdepth = none :=
  rfl

/-- The location stage keeps the brush. -/
theorem locStage_brush (rk : Int) (x : Node) :
    (if x.key = rk && locFalsy x.loc then { x with loc := some "0 0" }
     else x).brush = x.brush := by
  split <;> rfl

/-- The location stage keeps the direction. -/
theorem locStage_dir (rk : Int) (x : Node) :
    (if x.key = rk && locFalsy x.loc then { x with loc := some "0 0" }
     else x).dir = x.dir := by
  split <;> rfl

/-- The location stage leaves the root with a non-falsy location. -/
theorem locStage_root_loc (rk : Int) (x : Node) (h : x.key = rk) :
    locFalsy (if x.key = rk && locFalsy x.loc
      then { x with loc := some "0 0" } else x).loc = false := by
  split
  · rfl
  · rename_i hcond
    rw [Bool.and_eq_true, decide_eq_true_iff] at hcond
    push_neg at hcond
    rcases hf : locFalsy x.loc with _ | _
    · rfl
    · exact absurd hf (by simpa using hcond h)

/-- The direction stage keeps the brush. -/
theorem dirStage_brush (dmap : List (Int × String)) (x : Node) :
    (match dmap.lookup x.key with
      | some d => { x with dir := some d }
      | none => x).brush = x.brush := by
  cases h : List.lookup x.key dmap <;> simp only [h]

/-- The direction stage keeps the location. -/
theorem dirStage_loc (dmap : List (Int × String)) (x : Node) :
    (match dmap.lookup x.key with
      | some d => { x with dir := some d }
      | none => x).loc = x.loc := by
  cases h : List.lookup x.key dmap <;> simp only [h]

/-- The direction stage writes a found direction. -/
theorem dirStage_dir_some (dmap : List (Int × String)) (x : Node) (dd : String)
    (h : List.lookup x.key dmap = some dd) :
    (match dmap.lookup x.key with
      | some d => { x with dir := some d }
      | none => x).dir = some dd := by
  simp only [h]

/-- The depth writer keeps the text. -/
theorem setDepth_text (dm : List (Int × Int)) (x : Node) :
    (setDepth dm x).text = x.text := by
  unfold setDepth
  split <;> rfl

/-- The depth writer keeps the location. -/
theorem setDepth_loc (dm : List (Int × Int)) (x : Node) :
    (setDepth dm x).loc = x.loc := by
  unfold setDepth
  split <;> rfl

/-- The depth writer keeps the brush. -/
theorem setDepth_brush (dm : List (Int × Int)) (x : Node) :
    (setDepth dm x).brush = x.brush := by
  unfold setDepth
  split <;> rfl

/-- The depth writer keeps the direction. -/
theorem setDepth_dir (dm : List (Int × Int)) (x : Node) :
    (setDepth dm x).dir = x.dir := by
  unfold setDepth
  split <;> rfl

/-- The depth writer records a found depth. -/
theorem setDepth_tdepth_some (dm : List (Int × Int)) (x : Node) (d : Int)
    (h : List.lookup x.key dm = some d) :
    (setDepth dm x).tdepth = some d := by
  unfold setDepth
  simp only [h]

/-- The skeleton is preserved by the brush stage. -/
theorem skel_brushStage (conf : Conf) (x : Node) :
    skel { x with brush := some (colorFor conf (x.tdepth.getD 0)) } =
      skel x :=
  rfl

/-- The skeleton is preserved by the direction stage. -/
theorem skel_dirStage (dmap : List (Int × String)) (x : Node) :
    skel (match dmap.lookup x.key with
      | some d => { x with dir := some d }
      | none => x) = skel x := by
  cases h : List.lookup x.key dmap <;> simp only [h] <;> rfl

/-- The skeleton is preserved by the location stage. -/
theorem skel_locStage (rk : Int) (x : Node) :
    skel (if x.key = rk && locFalsy x.loc then { x with loc := some "0 0" }
      else x) = skel x := by
  split <;> rfl

/-- Mapping a function that preserves a projection leaves the projected
list unchanged. -/
theorem map_comp_pres {α : Type} (f : Node → Node) (g : Node → α)
    (hf : ∀ n, g (f n) = g n) (l : List Node) :
    (l.map f).map g = l.map g := by
  rw [List.map_map]
  exact List.map_congr_left (fun n _ => hf n)

/-- The direction stage keeps the key. -/
theorem dirStage_key (dmap : List (Int × String)) (x : Node) :
    (match dmap.lookup x.key with
      | some d => { x with dir := some d }
      | none => x).key = x.key := by
  cases h : List.lookup x.key dmap <;> simp only [h]

/-- The location stage keeps the key. -/
theorem locStage_key (rk : Int) (x : Node) :
    (if x.key = rk && locFalsy x.loc then { x with loc := some "0 0" }
     else x).key = x.key := by
  split <;> rfl

/-- The tail stages of the normalizer preserve the structural facts the
second run needs: skeletons, key uniqueness, the unique parentless root,
parent closure, kept paths, recorded depth colours and directions. -/
theorem tail_stage_facts (conf : Conf) (rk : Int) (rt : String) (r4 : Node)
    (ns4 : List Node) (dm5 : List (Int × Int)) (dmap : List (Int × String))
    (os : List Node)
    (hos : os = ((((ns4.map (setDepth dm5)).map (fun n =>
        { n with brush := some (colorFor conf (n.tdepth.getD 0)) })).map
          (fun n =>
            match dmap.lookup n.key with
            | some d => { n with dir := some d }
            | none => n)).map (fun n =>
              if n.key = rk && locFalsy n.loc then { n with loc := some "0 0" }
              else n)).map cleanupNode)
    (hdm5 : dm5 = depthMap (ns4.map skel) rk)
    (hdmap : dmap = dirAssign (ns4.map skel) rk)
    (hr4k : r4.key = rk) (hr4t : r4.text = rt)
    (h4closed : ∀ m ∈ ns4, ∀ p, getParent m = some p → ∃ m2 ∈ ns4, m2.key = p)
    (h4one : ns4.filter (fun n => getParent n == none) = [r4])
    (h4paths : ∀ m ∈ ns4, ∃ t' d',
      KPath conf (ns4.map skel) rk rt 0 m.key t' d' ∧
      keepCond conf t' d' = true)
    (h4nd : (ns4.map Node.key).Nodup) :
    ∃ r1,
      os.filter (fun n => getParent n == none) = [r1] ∧
      r1.key = rk ∧ r1.text = rt ∧ locFalsy r1.loc = false ∧
      os.length = ns4.length ∧
      (os.map Node.key).Nodup ∧
      os.map skel = ns4.map skel ∧
      (∀ n ∈ os, n.tdepth = none) ∧
      (∀ n ∈ os, n.parent ≠ some none) ∧
      (∀ n ∈ os, ∀ p, getParent n = some p → ∃ m ∈ os, m.key = p) ∧
      (∀ n ∈ os, ∃ t' d',
        KPath conf (os.map skel) rk rt 0 n.key t' d' ∧
        keepCond conf t' d' = true) ∧
      (∀ n ∈ os, ∃ d, List.lookup n.key (depthMap (os.map skel) rk) = some d ∧
        n.brush = some (colorFor conf d)) ∧
      (∀ n ∈ os, ∀ dd, List.lookup n.key (dirAssign (os.map skel) rk) =
        some dd → n.dir = some dd) := by
  have hF : ∀ m : Node,
      skel (cleanupNode
        ((fun n => if n.key = rk && locFalsy n.loc
            then { n with loc := some "0 0" } else n)
          ((fun n =>
              match dmap.lookup n.key with
              | some d => { n with dir := some d }
              | none => n)
            ((fun n =>
                { n with brush := some (colorFor conf (n.tdepth.getD 0)) })
              (setDepth dm5 m))))) = skel m ∧
      (cleanupNode
        ((fun n => if n.key = rk && locFalsy n.loc
            then { n with loc := some "0 0" } else n)
          ((fun n =>
              match dmap.lookup n.key with
              | some d => { n with dir := some d }
              | none => n)
            ((fun n =>
                { n with brush := some (colorFor conf (n.tdepth.getD 0)) })
              (setDepth dm5 m))))).tdepth = none ∧
      (cleanupNode
        ((fun n => if n.key = rk && locFalsy n.loc
            then { n with loc := some "0 0" } else n)
          ((fun n =>
              match dmap.lookup n.key with
              | some d => { n with dir := some d }
              | none => n)
            ((fun n =>
                { n with brush := some (colorFor conf (n.tdepth.getD 0)) })
              (setDepth dm5 m))))).parent ≠ some none ∧
      (∀ d, List.lookup m.key dm5 = some d →
        (cleanupNode
          ((fun n => if n.key = rk && locFalsy n.loc
              then { n with loc := some "0 0" } else n)
            ((fun n =>
                match dmap.lookup n.key with
                | some d => { n with dir := some d }
                | none => n)
              ((fun n =>
                  { n with brush := some (colorFor conf (n.tdepth.getD 0)) })
                (setDepth dm5 m))))).brush = some (colorFor conf d)) ∧
      (∀ dd, List.lookup m.key dmap = some dd →
        (cleanupNode
          ((fun n => if n.key = rk && locFalsy n.loc
              then { n with loc := some "0 0" } else n)
            ((fun n =>
                match dmap.lookup n.key with
                | some d => { n with dir := some d }
                | none => n)
              ((fun n =>
                  { n with brush := some (colorFor conf (n.tdepth.getD 0)) })
                (setDepth dm5 m))))).dir = some dd) ∧
      (m.key = rk → locFalsy (cleanupNode
        ((fun n => if n.key = rk && locFalsy n.loc
            then { n with loc := some "0 0" } else n)
          ((fun n =>
              match dmap.lookup n.key with
              | some d => { n with dir := some d }
              | none => n)
            ((fun n =>
                { n with brush := some (colorFor conf (n.tdepth.getD 0)) })
              (setDepth dm5 m))))).loc = false) := by
    intro m
    refine ⟨?_, rfl, cleanup_parent_ne _, ?_, ?_, ?_⟩
    · dsimp only []
      rw [skel_cleanup, skel_locStage rk]
      split <;> exact skel_setDepth dm5 m
    · intro d hd
      dsimp only []
      rw [cleanup_brush, locStage_brush rk]
      split <;> (rw [setDepth_tdepth_some dm5 m d hd]; rfl)
    · intro dd hdd
      dsimp only []
      rw [cleanup_dir, locStage_dir rk]
      split
      · rename_i d2 hlk
        rw [setDepth_key dm5 m] at hlk
        rw [hdd] at hlk
        obtain hde := Option.some_injective _ hlk
        show some d2 = some dd
        rw [hde]
      · rename_i hlk
        rw [setDepth_key dm5 m] at hlk
        rw [hdd] at hlk
        exact Option.noConfusion hlk
    · intro hk
      dsimp only []
      rw [cleanup_loc]
      apply locStage_root_loc
      split <;> exact (setDepth_key dm5 m).trans hk
  have hnonull : ∀ n ∈ os, n.parent ≠ some none := by
    intro n hn
    rw [hos] at hn
    obtain ⟨x, _, hxe⟩ := List.mem_map.mp hn
    rw [← hxe]
    exact cleanup_parent_ne x
  have hskos : os.map skel = ns4.map skel := by
    rw [hos]
    rw [map_comp_pres _ skel (fun n => skel_cleanup n)]
    rw [map_comp_pres _ skel (fun n => by split <;> rfl)]
    rw [map_comp_pres _ skel (fun n => by
      cases h : List.lookup n.key dmap <;> simp only [h] <;> rfl)]
    rw [map_comp_pres
      (fun n => { n with brush := some (colorFor conf (n.tdepth.getD 0)) })
      skel (fun n => rfl)]
    rw [map_comp_pres _ skel (fun n => skel_setDepth dm5 n)]
  have hkeys : os.map Node.key = ns4.map Node.key := by
    rw [hos]
    exact tail_stage_keys conf rk dm5 dmap ns4
  have hprov : ∀ n ∈ os, ∃ m ∈ ns4, n = cleanupNode
      ((fun n => if n.key = rk && locFalsy n.loc
          then { n with loc := some "0 0" } else n)
        ((fun n =>
            match dmap.lookup n.key with
            | some d => { n with dir := some d }
            | none => n)
          ((fun n =>
              { n with brush := some (colorFor conf (n.tdepth.getD 0)) })
            (setDepth dm5 m)))) := by
    intro n hn
    rw [hos] at hn
    obtain ⟨x4, hx4, hx4e⟩ := List.mem_map.mp hn
    obtain ⟨x3, hx3, hx3e⟩ := List.mem_map.mp hx4
    obtain ⟨x2, hx2, hx2e⟩ := List.mem_map.mp hx3
    obtain ⟨x1, hx1, hx1e⟩ := List.mem_map.mp hx2
    obtain ⟨m, hm, hme⟩ := List.mem_map.mp hx1
    refine ⟨m, hm, ?_⟩
    rw [← hx4e, ← hx3e, ← hx2e, ← hx1e, ← hme]
  have hmem : ∀ m ∈ ns4, cleanupNode
      ((fun n => if n.key = rk && locFalsy n.loc
          then { n with loc := some "0 0" } else n)
        ((fun n =>
            match dmap.lookup n.key with
            | some d => { n with dir := some d }
            | none => n)
          ((fun n =>
              { n with brush := some (colorFor conf (n.tdepth.getD 0)) })
            (setDepth dm5 m)))) ∈ os := by
    intro m hm
    rw [hos]
    exact List.mem_map_of_mem cleanupNode
      (List.mem_map_of_mem _ (List.mem_map_of_mem _
        (List.mem_map_of_mem _ (List.mem_map_of_mem _ hm))))
  refine ⟨cleanupNode
      ((fun n => if n.key = rk && locFalsy n.loc
          then { n with loc := some "0 0" } else n)
        ((fun n =>
            match dmap.lookup n.key with
            | some d => { n with dir := some d }
            | none => n)
          ((fun n =>
              { n with brush := some (colorFor conf (n.tdepth.getD 0)) })
            (setDepth dm5 r4)))),
    ?_, ?_, ?_, (hF r4).2.2.2.2.2 hr4k, ?_, ?_, hskos, ?_, hnonull, ?_, ?_,
    ?_, ?_⟩
  · rw [← filter_parentless_eq os hnonull, hos,
      tail_stage_parentless conf rk dm5 dmap ns4, h4one]
    rfl
  · rw [key_of_skel (hF r4).1]
    exact hr4k
  · rw [text_of_skel (hF r4).1]
    exact hr4t
  · rw [hos]
    simp [List.length_map]
  · rw [hkeys]
    exact h4nd
  · intro n hn
    obtain ⟨m, hm, hne⟩ := hprov n hn
    rw [hne]
    exact ((hF m).2.1)
  · intro n hn p hp
    obtain ⟨m, hm, hne⟩ := hprov n hn
    rw [hne, getParent_of_skel (hF m).1] at hp
    obtain ⟨m2, hm2, hk2⟩ := h4closed m hm p hp
    refine ⟨_, hmem m2 hm2, ?_⟩
    rw [key_of_skel (hF m2).1]
    exact hk2
  · intro n hn
    obtain ⟨m, hm, hne⟩ := hprov n hn
    obtain ⟨t', d', hpath, hcnd⟩ := h4paths m hm
    refine ⟨t', d', ?_, hcnd⟩
    rw [hne, key_of_skel (hF m).1, hskos]
    exact hpath
  · intro n hn
    obtain ⟨m, hm, hne⟩ := hprov n hn
    obtain ⟨t', d', hpath, _⟩ := h4paths m hm
    have hreach : Reach (ns4.map skel) rk m.key :=
      KPath_to_Reach conf (ns4.map skel) rk rt hpath
    have hcov := depthMap_covers (ns4.map skel) rk hreach
    obtain ⟨d, hd⟩ := lookup_of_mem_fst _ _ hcov
    refine ⟨d, ?_, ?_⟩
    · rw [hne, key_of_skel (hF m).1, hskos]
      exact hd
    · rw [hne]
      exact (hF m).2.2.2.1 d (by rw [hdm5]; exact hd)
  · intro n hn dd hdd
    obtain ⟨m, hm, hne⟩ := hprov n hn
    rw [hne, key_of_skel (hF m).1, hskos] at hdd
    rw [hne]
    exact (hF m).2.2.2.2.1 dd (by rw [hdmap]; exact hdd)

/-- A list contains-check succeeds on members. -/
theorem contains_of_mem (l : List Int) (x : Int) (h : x ∈ l) :
    l.contains x = true := by
  rw [List.contains_iff_exists_mem_beq]
  exact ⟨x, h, beq_self_eq_true x⟩

/-- The cascade step fixes the empty set. -/
theorem orphanStep_empty (sk : List Sk) : orphanStep sk ∅ = ∅ := by
  rw [orphanStep]
  rw [show sk.filter (fun s =>
      match s.2.1 with
      | some p => decide (p ∈ (∅ : Finset Int))
      | none => false) = [] from ?_]
  · simp
  · rw [List.filter_eq_nil_iff]
    intro s _
    rcases hp : s.2.1 with _ | p <;> simp [hp]

/-- Iteration from the empty set stays empty when the step fixes it. -/
theorem iterToFix_empty (g : Finset Int → Finset Int) (h : g ∅ = ∅) :
    ∀ fuel, iterToFix g fuel ∅ = ∅ := by
  intro fuel
  cases fuel with
  | zero => rfl
  | succ fuel =>
    rw [iterToFix, if_pos h]

/-- A parent-closed node list has no orphan keys. -/
theorem orphanKeys_closed_empty (os : List Node)
    (hclosed : ∀ n ∈ os, ∀ p, getParent n = some p → ∃ m ∈ os, m.key = p) :
    orphanKeys (os.map skel) = ∅ := by
  have hinit : orphanInit (os.map skel) = ∅ := by
    rw [orphanInit]
    rw [show (os.map skel).filter (fun s =>
        match s.2.1 with
        | some p => !(skKeys (os.map skel)).contains p
        | none => false) = [] from ?_]
    · simp
    · rw [List.filter_eq_nil_iff]
      intro s hs
      obtain ⟨n, hn, hns⟩ := List.mem_map.mp hs
      rcases hp : s.2.1 with _ | p
      · simp [hp]
      · have hgp : getParent n = some p := by
          rw [show getParent n = (skel n).2.1 from rfl, hns]
          exact hp
        obtain ⟨m, hm, hmk⟩ := hclosed n hn p hgp
        have hpk : p ∈ skKeys (os.map skel) := by
          rw [skKeys_map_skel, ← hmk]
          exact List.mem_map_of_mem Node.key hm
        simp only [hp]
        rw [contains_of_mem (skKeys (os.map skel)) p hpk]
        simp
  rw [orphanKeys, hinit]
  exact iterToFix_empty _ (orphanStep_empty _) _

/-- The normalizer is the identity on its own output: a node list carrying
all the invariants the first run establishes is a fixpoint of the second
run. -/
theorem post_id (conf : Conf) (c : String) (os : List Node) (r1 : Node)
    (hone : os.filter (fun n => getParent n == none) = [r1])
    (hnd : (os.map Node.key).Nodup)
    (hlen : os.length ≤ conf.maxNodes)
    (hloc : locFalsy r1.loc = false)
    (htd : ∀ n ∈ os, n.tdepth = none)
    (hnonull : ∀ n ∈ os, n.parent ≠ some none)
    (hclosed : ∀ n ∈ os, ∀ p, getParent n = some p → ∃ m ∈ os, m.key = p)
    (hkeep2 : ∀ n ∈ os, ∃ t' d',
      KPath conf (os.map skel) r1.key r1.text 0 n.key t' d' ∧
      keepCond conf t' d' = true)
    (hbrush : ∀ n ∈ os, ∃ d,
      List.lookup n.key (depthMap (os.map skel) r1.key) = some d ∧
      n.brush = some (colorFor conf d))
    (hdir : ∀ n ∈ os, ∀ dd,
      List.lookup n.key (dirAssign (os.map skel) r1.key) = some dd →
      n.dir = some dd) :
    post_process_mindmap conf
      { className := some c, nodeDataArray := some os } =
      { className := some c, nodeDataArray := some os } := by
  have hr1 : r1 ∈ os ∧ (getParent r1 == none) = true :=
    List.mem_filter.mp (by rw [hone]; exact List.mem_singleton.mpr rfl)
  have hr1p : getParent r1 = none := by simpa using hr1.2
  have hne : ¬ os.isEmpty = true := by
    intro he
    rw [List.isEmpty_iff] at he
    subst he
    simp at hone
  have hroot : findRootLast os = some r1 := findRootLast_single os r1 hone
  have hS := orphanKeys_closed_empty os hclosed
  have hsknd : (skKeys (os.map skel)).Nodup := by
    rw [skKeys_map_skel]
    exact hnd
  have hrootk : ∀ s ∈ os.map skel, s.1 = r1.key → s.2.1 = none := by
    intro s hs h1
    obtain ⟨m, hm, hms⟩ := List.mem_map.mp hs
    have hmr : m = r1 := key_inj os hnd hm hr1.1
      (by rw [← hms] at h1; exact h1)
    rw [← hms, hmr]
    exact hr1p
  have hrkmem : r1.key ∈ skKeys (os.map skel) := by
    rw [skKeys_map_skel]
    exact List.mem_map_of_mem Node.key hr1.1
  have hKeq : dfsKeepSet conf (os.map skel) r1.key r1.text =
      (os.map Node.key).toFinset := by
    apply Finset.Subset.antisymm
    · intro p hp
      obtain ⟨t', d', hpath, _⟩ := dfsKeepSet_sound conf _ _ _ hp
      rcases KPath_endpoint conf _ hpath with ⟨hpk, _⟩ | ⟨s, hs, hk, _⟩
      · subst hpk
        rw [List.mem_toFinset]
        exact List.mem_map_of_mem Node.key hr1.1
      · rw [List.mem_toFinset, ← hk, ← skKeys_map_skel os]
        exact List.mem_map_of_mem (fun s => s.1) hs
    · intro p hp
      rw [List.mem_toFinset, List.mem_map] at hp
      obtain ⟨n, hn, hnk⟩ := hp
      obtain ⟨t', d', hpath, hcnd⟩ := hkeep2 n hn
      rw [← hnk]
      exact dfsKeepSet_complete conf _ _ _ hsknd hrootk hrkmem hpath hcnd
  have hfilter : os.filter
      (fun n => !decide (n.key ∈ (∅ : Finset Int))) = os :=
    List.filter_eq_self.mpr (fun n _ => by simp)
  simp only [post_process_mindmap, hroot, if_neg hne, Option.getD_some]
  rw [List.take_of_length_le hlen, hS, hfilter]
  rw [if_neg (by
    intro hcontra
    apply hcontra.1
    rw [hKeq, List.toFinset_card_of_nodup hnd, List.length_map,
      List.length_map])]
  rw [map_skel_setDepth (depthMap (os.map skel) r1.key) os]
  rw [MindMap.mk.injEq]
  refine ⟨rfl, ?_⟩
  rw [Option.some.injEq]
  generalize hgdm : depthMap (List.map skel os) r1.key = dmv
  generalize hgdp : dirAssign (List.map skel os) r1.key = dpv
  rw [hgdm] at hbrush
  rw [hgdp] at hdir
  rw [List.map_map, List.map_map, List.map_map, List.map_map, List.map_map]
  refine Eq.trans (List.map_congr_left (fun n hn => ?_)) (List.map_id os)
  dsimp only [Function.comp, id]
  obtain ⟨d, hdl, hbr⟩ := hbrush n hn
  have h1 : setDepth dmv n = { n with tdepth := some d } := by
    unfold setDepth
    rw [hdl]
  have h2 : setDepth dmv { n with tdepth := some d } =
      { n with tdepth := some d } := by
    unfold setDepth
    simp only [hdl]
  rw [h1, h2]
  simp only [Option.getD_some]
  simp only [← hbr]
  have hcond : (decide (n.key = r1.key) && locFalsy n.loc) = false := by
    by_cases hk : n.key = r1.key
    · have hnr : n = r1 := key_inj os hnd hn hr1.1 hk
      rw [hnr, hloc]
      simp
    · simp [hk]
  cases hld : List.lookup n.key dpv with
  | some dd =>
    simp only [hld]
    simp only [← hdir n hn dd hld]
    simp only [hcond, Bool.false_eq_true, if_false]
    unfold cleanupNode
    rw [if_neg (hnonull n hn)]
    simp only [← htd n hn]
  | none =>
    simp only [hld]
    simp only [hcond, Bool.false_eq_true, if_false]
    unfold cleanupNode
    rw [if_neg (hnonull n hn)]
    simp only [← htd n hn]

/-- A root failing the keep condition empties the keep set. -/
theorem dfsKeepSet_cond_false (conf : Conf) (sk : List Sk) (rk : Int)
    (rt : String) (h : keepCond conf rt 0 = false) :
    dfsKeepSet conf sk rk rt = ∅ := by
  rw [dfsKeepSet, keepGo, if_neg (by rw [h]; exact Bool.false_ne_true)]

/-- Claim C1: the structural normalizer is idempotent on every input whose
node array is present, has unique keys, fits the node cap, and is run with
a non-negative depth bound (the default configuration): re-running the
normalizer on its own output changes nothing. -/
theorem c1_idempotent (conf : Conf) (data : MindMap) (ns : List Node)
    (hns : data.nodeDataArray = some ns)
    (hnd : (ns.map Node.key).Nodup)
    (hlen : ns.length ≤ conf.maxNodes)
    (hmd : 0 ≤ conf.maxDepth) :
    post_process_mindmap conf (post_process_mindmap conf data) =
      post_process_mindmap conf data := by
  by_cases hne : ns.isEmpty = true
  · rw [List.isEmpty_iff] at hne
    subst hne
    have h1 : post_process_mindmap conf data = data := by
      simp only [post_process_mindmap, hns]
      rfl
    simp only [h1]
  · rcases hroot : findRootLast ns with _ | root
    · have h1 : post_process_mindmap conf data =
          { className := some (data.className.getD "go.TreeModel"),
            nodeDataArray := some ns } := by
        simp only [post_process_mindmap, hns, hroot, if_neg hne]
      rw [h1]
      simp only [post_process_mindmap, hroot, if_neg hne, Option.getD_some]
    · obtain ⟨hrmem, hrp⟩ := findRootLast_spec ns root hroot
      have hnotorph : root.key ∉ orphanKeys (ns.map skel) := by
        intro hmem
        obtain ⟨s, hs, hk, hp⟩ := orphanKeys_parented (ns.map skel) root.key
          hmem
        obtain ⟨m, hm, hms⟩ := List.mem_map.mp hs
        have hkey : m.key = root.key := by
          rw [← hms] at hk
          exact hk
        have hmr : m = root := key_inj ns hnd hm hrmem hkey
        rw [← hms, hmr] at hp
        exact hp hrp
      generalize hgNS2 :
        ns.filter (fun n => !decide (n.key ∈ orphanKeys (ns.map skel))) = ns2
      generalize hgDM2 : depthMap (ns2.map skel) root.key = dm2
      generalize hgK : dfsKeepSet conf (ns2.map skel) root.key root.text = K
      have hr2 : root ∈ ns2 := by
        rw [← hgNS2, List.mem_filter]
        exact ⟨hrmem, by simp [hnotorph]⟩
      have hnd2 : (ns2.map Node.key).Nodup := by
        rw [← hgNS2]
        exact List.Nodup.sublist
          (List.Sublist.map Node.key (List.filter_sublist ns)) hnd
      have hlen2 : ns2.length ≤ ns.length := by
        rw [← hgNS2]
        exact List.length_filter_le _ _
      have hclosed2 : ∀ n ∈ ns2, ∀ p, getParent n = some p →
          ∃ m ∈ ns2, m.key = p := by
        rw [← hgNS2]
        exact fun n hn p hp => orphan_filter_closed ns n hn p hp
      by_cases hcond : keepCond conf root.text 0 = true
      · generalize hgNS4 :
          (if K.card ≠ (ns2.map (setDepth dm2)).length ∧ 0 ≤ conf.maxDepth
           then (ns2.map (setDepth dm2)).filter (keepFilter K)
           else ns2.map (setDepth dm2)) = ns4
        generalize hgDM5 : depthMap (ns4.map skel) root.key = dm5
        generalize hgDMAP : dirAssign (ns4.map skel) root.key = dmap
        generalize hgOS :
          ((((ns4.map (setDepth dm5)).map (fun n =>
              { n with brush := some (colorFor conf (n.tdepth.getD 0)) })).map
                (fun n =>
                  match dmap.lookup n.key with
                  | some d => { n with dir := some d }
                  | none => n)).map (fun n =>
                if n.key = root.key && locFalsy n.loc
                then { n with loc := some "0 0" }
                else n)).map cleanupNode = os
        obtain ⟨hC1, hC2, hC3, hC4, hnd4, hlen4⟩ := keep_stage_core conf
          ns2 root dm2 K ns4 hgK.symm hgNS4.symm hr2 hrp hnd2 hcond hmd
          hclosed2
        obtain ⟨r1, hone1, hr1k, hr1t, hloc1, hlen1, hnd1, hskos1, htd1,
          hnonull1, hclosed1, hkeep1, hbrush1, hdir1⟩ :=
          tail_stage_facts conf root.key root.text (setDepth dm2 root) ns4
            dm5 dmap os hgOS.symm hgDM5.symm hgDMAP.symm
            (setDepth_key dm2 root) (setDepth_text dm2 root)
            hC2 hC3 hC4 hnd4
        have hpost : post_process_mindmap conf data =
            { className := some (data.className.getD "go.TreeModel"),
              nodeDataArray := some os } := by
          simp only [post_process_mindmap, hns, hroot, if_neg hne]
          rw [List.take_of_length_le hlen]
          rw [hgNS2, hgDM2, hgK, hgNS4, hgDM5, hgDMAP, hgOS]
        rw [← hr1k] at hkeep1 hbrush1 hdir1
        rw [← hr1t] at hkeep1
        have hlenos : os.length ≤ conf.maxNodes := by
          rw [hlen1]
          exact le_trans hlen4 (le_trans hlen2 hlen)
        rw [hpost]
        exact post_id conf (data.className.getD "go.TreeModel") os r1 hone1
          hnd1 hlenos hloc1 htd1 hnonull1 hclosed1 hkeep1 hbrush1 hdir1
      · rw [Bool.not_eq_true] at hcond
        have hK0 : K = ∅ := by
          rw [← hgK]
          exact dfsKeepSet_cond_false conf (ns2.map skel) root.key root.text
            hcond
        have hne2 : (ns2.map (setDepth dm2)).length ≠ 0 := by
          rw [List.length_map]
          intro h0
          rw [List.length_eq_zero] at h0
          rw [h0] at hr2
          exact List.not_mem_nil root hr2
        have hpost : post_process_mindmap conf data =
            { className := some (data.className.getD "go.TreeModel"),
              nodeDataArray := some [] } := by
          simp only [post_process_mindmap, hns, hroot, if_neg hne]
          rw [List.take_of_length_le hlen]
          rw [hgNS2, hgDM2, hgK, hK0]
          rw [if_pos (And.intro (by
            rw [Finset.card_empty]
            exact fun h => hne2 h.symm) hmd)]
          rw [show (ns2.map (setDepth dm2)).filter (keepFilter ∅) = [] from
            List.filter_eq_nil_iff.mpr (fun m _ => by simp [keepFilter])]
          rfl
        rw [hpost]
        rfl

theorem c1_idempotent_witness :
    post_process_mindmap defaultConf
      (post_process_mindmap defaultConf
        { className := some "go.TreeModel",
          nodeDataArray := some
            [{ key := 1, text := "Root", parent := none, dir := none,
               brush := none, loc := none, tdepth := none },
             { key := 2, text := "Child", parent := some (some 1),
               dir := none, brush := none, loc := none, tdepth := none }] }) =
    post_process_mindmap defaultConf
      { className := some "go.TreeModel",
        nodeDataArray := some
          [{ key := 1, text := "Root", parent := none, dir := none,
             brush := none, loc := none, tdepth := none },
           { key := 2, text := "Child", parent := some (some 1),
             dir := none, brush := none, loc := none, tdepth := none }] } :=
  c1_idempotent defaultConf _
    [{ key := 1, text := "Root", parent := none, dir := none,
       brush := none, loc := none, tdepth := none },
     { key := 2, text := "Child", parent := some (some 1),
       dir := none, brush := none, loc := none, tdepth := none }]
    rfl (by decide) (by decide) (by decide)
